import Mathlib

/-!
Formal model of the test-execution engine of this repository: the fixture
registry and graph resolver, the fixture lifecycle executor's timeout and
error-deduplication behaviour, the worker hash, the worker teardown
diagnostics, and the `WorkerHost` process handle.

The `WorkerHost` definitions are translated from the repository source
(`WorkerHost` class and the IPC payload types).  The fixture engine itself is
not part of the source tree surfaced here (only its test suite is), so those
definitions are modelled from the specification, as marked in their doc
comments.
-/

/-- Fixture scope: a fixture instance lives for one test attempt (`test`) or
for the worker process lifetime (`worker`). -/
inductive FScope where
  | test
  | worker
deriving DecidableEq

/-- Modelled from the spec: a fixture registration record — name, scope,
ordered dependency names, source location of the declaring call, and an
optional link to the previous registration of the same name in the override
chain (used to resolve self-references).  `rid` is the position in the
registration order and identifies the registration uniquely. -/
structure Reg where
  rid : Nat
  name : String
  scope : FScope
  deps : List String
  loc : String
  superRid : Option Nat
deriving DecidableEq

/-- Modelled from the spec: the fixture registry accumulated through chained
`extend` calls, kept as the full list of registrations in registration
order. -/
structure Pool where
  regs : List Reg
deriving DecidableEq

/-- Last element of a list satisfying a predicate, together with a membership
proof; the registry resolves a plain dependency name to the latest (most
recently registered) declaration of that name. -/
def lastWith : (l : List Reg) → (p : Reg → Bool) → Option {r : Reg // r ∈ l}
  | [], _ => none
  | a :: as, p =>
    match lastWith as p with
    | some ⟨r, h⟩ => some ⟨r, List.mem_cons_of_mem a h⟩
    | none => if p a then some ⟨a, List.mem_cons_self a as⟩ else none

/-- Latest registration of a given fixture name. -/
def findLatest (pool : Pool) (n : String) : Option {r : Reg // r ∈ pool.regs} :=
  lastWith pool.regs (fun s => s.name = n)

/-- First registration with a given `rid` (rids are unique in well-formed
pools). -/
def firstWithRid : (l : List Reg) → (i : Nat) → Option {r : Reg // r ∈ l}
  | [], _ => none
  | a :: as, i =>
    if a.rid = i then some ⟨a, List.mem_cons_self a as⟩
    else
      match firstWithRid as i with
      | some ⟨r, h⟩ => some ⟨r, List.mem_cons_of_mem a h⟩
      | none => none

/-- Modelled from the spec: dependency resolution.  A dependency on the
fixture's own name means "the previous definition" (the super registration of
the override chain); any other name resolves to the latest registration of
that name. -/
def resolveDep (pool : Pool) (r : Reg) (d : String) : Option {s : Reg // s ∈ pool.regs} :=
  if d = r.name then
    match r.superRid with
    | none => none
    | some i => firstWithRid pool.regs i
  else findLatest pool d

/-- Dependency resolution, forgetting the membership proof. -/
def resolveDep' (pool : Pool) (r : Reg) (d : String) : Option Reg :=
  (resolveDep pool r d).map Subtype.val

/-- Errors of the fixture registry and resolver. -/
inductive FixtureError where
  | alreadyRegistered (name : String) (prevScope : FScope) (prevLoc : String) (newLoc : String)
  | selfRefNoBase (name : String) (loc : String)
  | unknownParam (r : Reg) (d : String)
  | workerDependsOnTest (w : Reg) (t : Reg)
  | cycleErr (c : List Reg)
deriving DecidableEq

def quoteName (n : String) : String := "\"" ++ n ++ "\""

def scopeName : FScope → String
  | .test => "test"
  | .worker => "worker"

/-- Names along a reported cycle, closing the chain back at its first name. -/
def cycleNames (c : List Reg) : List String :=
  match c with
  | [] => []
  | h :: _ => c.map Reg.name ++ [h.name]

/-- Locations annotating a reported cycle: the location of the registration
introducing each edge of the cycle, joined by the arrow separator. -/
def cycleLocs (c : List Reg) : String :=
  String.intercalate " -> " (c.map Reg.loc)

/-- User-visible message of each fixture error, matching the texts asserted by
the repository's test suite. -/
def errorMessage : FixtureError → String
  | .alreadyRegistered n sc prevLoc _ =>
      "Fixture " ++ quoteName n ++ " has already been registered as a \x7b scope: \x27" ++
        scopeName sc ++ "\x27 \x7d fixture defined in " ++ prevLoc ++ "."
  | .selfRefNoBase n _ =>
      "Fixture " ++ quoteName n ++ " references itself, but does not have a base implementation."
  | .unknownParam r d =>
      "Fixture " ++ quoteName r.name ++ " has unknown parameter " ++ quoteName d ++ "."
  | .workerDependsOnTest w t =>
      "worker fixture " ++ quoteName w.name ++ " cannot depend on a test fixture " ++
        quoteName t.name ++ " defined in " ++ t.loc ++ "."
  | .cycleErr c =>
      "Fixtures " ++ String.intercalate " -> " ((cycleNames c).map quoteName) ++
        " form a dependency cycle:"

/-- Slice of the visiting stack from the first occurrence of the
re-encountered registration: the reported minimal cycle. -/
def sliceFrom (stack : List Reg) (dep : Reg) : List Reg :=
  stack.drop (stack.findIdx (fun s => s.rid = dep.rid))

/-- Number of pool registrations not yet on the visiting stack; the
termination measure of the depth-first traversal. -/
def remCount (pool : Pool) (stack : List Reg) : Nat :=
  ((pool.regs.map Reg.rid).filter (fun i => ¬ i ∈ stack.map Reg.rid)).length

theorem remCount_lt (pool : Pool) (stack : List Reg) (dep : Reg)
    (hmem : dep ∈ pool.regs) (hnot : ¬ dep.rid ∈ stack.map Reg.rid) :
    remCount pool (stack ++ [dep]) < remCount pool stack := by
  unfold remCount
  have hsub : ((pool.regs.map Reg.rid).filter (fun i => ¬ i ∈ (stack ++ [dep]).map Reg.rid)).Sublist
      ((pool.regs.map Reg.rid).filter (fun i => ¬ i ∈ stack.map Reg.rid)) := by
    apply List.monotone_filter_right
    intro i hi
    simp only [decide_eq_true_eq, List.map_append, List.mem_append] at hi ⊢
    simp at hi ⊢
    tauto
  have hle := hsub.length_le
  rcases Nat.lt_or_ge
      ((pool.regs.map Reg.rid).filter (fun i => ¬ i ∈ (stack ++ [dep]).map Reg.rid)).length
      ((pool.regs.map Reg.rid).filter (fun i => ¬ i ∈ stack.map Reg.rid)).length with h | h
  · exact h
  · exfalso
    have heq := hsub.eq_of_length (Nat.le_antisymm hle h)
    have hin : dep.rid ∈ (pool.regs.map Reg.rid).filter (fun i => ¬ i ∈ stack.map Reg.rid) := by
      rw [List.mem_filter]
      refine ⟨List.mem_map_of_mem Reg.rid hmem, by simpa using hnot⟩
    rw [← heq] at hin
    rw [List.mem_filter] at hin
    simp at hin

/-- Modelled from the spec: the depth-first traversal of the fixture graph
performed by the resolver (the resolver source is not in the surfaced tree).
`visitD` processes the remaining dependency names `ds` of registration `r`,
with `stack` the visiting stack (root first, `r` last).  For each dependency:
an unresolvable name is an unknown-parameter error; a worker-scope
registration depending on a test-scope one is rejected at the point the edge
is resolved; a dependency already on the visiting stack is a dependency
cycle, reported as the stack slice from its first occurrence; otherwise the
dependency is visited depth-first. -/
def visitD (pool : Pool) (r : Reg) (ds : List String) (stack : List Reg) :
    Except FixtureError Unit :=
  match ds with
  | [] => .ok ()
  | d :: rest =>
    match resolveDep pool r d with
    | none => .error (.unknownParam r d)
    | some dep =>
      if r.scope = .worker ∧ dep.val.scope = .test then
        .error (.workerDependsOnTest r dep.val)
      else if hcyc : dep.val.rid ∈ stack.map Reg.rid then
        .error (.cycleErr (sliceFrom stack dep.val))
      else
        match visitD pool dep.val dep.val.deps (stack ++ [dep.val]) with
        | .error e => .error e
        | .ok () => visitD pool r rest stack
termination_by (remCount pool stack, ds.length)
decreasing_by
  · exact Prod.Lex.left _ _ (remCount_lt pool stack dep.val dep.property hcyc)
  · exact Prod.Lex.right _ (Nat.lt_succ_self rest.length)

/-- Computable lexicographic comparison of character lists by code point. -/
def charsLE : List Char → List Char → Bool
  | [], _ => true
  | _ :: _, [] => false
  | a :: as, b :: bs =>
    if a.toNat < b.toNat then true
    else if b.toNat < a.toNat then false
    else charsLE as bs

/-- Computable lexicographic order on fixture names. -/
def nameLE (a b : String) : Bool := charsLE a.data b.data

/-- Insertion into a sorted list of names. -/
def insertSorted (s : String) : List String → List String
  | [] => [s]
  | t :: ts => if nameLE s t then s :: t :: ts else t :: insertSorted s ts

/-- Sorting names; the resolver visits registration names in this
deterministic order. -/
def sortNames (l : List String) : List String := l.foldr insertSorted []

/-- Registered fixture names, deduplicated and in sorted order: the roots the
resolver traverses. -/
def rootsOf (pool : Pool) : List String :=
  sortNames (pool.regs.map Reg.name).dedup

/-- Traversal of each root name in order, stopping at the first error. -/
def goRoots (pool : Pool) : List String → Except FixtureError Unit
  | [] => .ok ()
  | n :: ns =>
    match findLatest pool n with
    | none => goRoots pool ns
    | some root =>
      match visitD pool root.val root.val.deps [root.val] with
      | .error e => .error e
      | .ok () => goRoots pool ns

/-- Modelled from the spec: the resolver's validation of the whole registry —
a depth-first traversal from each registered name (latest registration of
that name), names taken in sorted order for determinism. -/
def validate (pool : Pool) : Except FixtureError Unit :=
  goRoots pool (rootsOf pool)

/-- Modelled from the spec: a single fixture declaration as passed to
`extend`. -/
structure Decl where
  name : String
  scope : FScope
  deps : List String
  loc : String
deriving DecidableEq

/-- Modelled from the spec: registering one declaration.  A name already
registered with a different scope is a build-time error naming both
locations; a new declaration of an existing name is linked as an override of
the previous one; a self-referencing declaration of a name with no previous
definition fails with the no-base-implementation error. -/
def addDecl (pool : Pool) (nextRid : Nat) (d : Decl) : Except FixtureError (Pool × Nat) :=
  match findLatest pool d.name with
  | some prev =>
    if prev.val.scope ≠ d.scope then
      .error (.alreadyRegistered d.name prev.val.scope prev.val.loc d.loc)
    else
      .ok ({ regs := pool.regs ++ [⟨nextRid, d.name, d.scope, d.deps, d.loc, some prev.val.rid⟩] },
        nextRid + 1)
  | none =>
    if d.name ∈ d.deps then
      .error (.selfRefNoBase d.name d.loc)
    else
      .ok ({ regs := pool.regs ++ [⟨nextRid, d.name, d.scope, d.deps, d.loc, none⟩] },
        nextRid + 1)

/-- Sequential registration of a list of declarations, threading the next
registration id. -/
def buildGo : Pool → Nat → List Decl → Except FixtureError (Pool × Nat)
  | pool, k, [] => .ok (pool, k)
  | pool, k, d :: ds =>
    match addDecl pool k d with
    | .error e => .error e
    | .ok (p, k') => buildGo p k' ds

/-- Modelled from the spec: building the registry from the flattened chain of
`extend` declarations, starting from the empty registry. -/
def buildPool (ds : List Decl) : Except FixtureError Pool :=
  match buildGo { regs := [] } 0 ds with
  | .error e => .error e
  | .ok (p, _) => .ok p

/-- Dependency edge of the fixture graph: `r` lists a dependency name that
resolves to `s`. -/
def edgeStep (pool : Pool) (r s : Reg) : Prop :=
  ∃ d ∈ r.deps, resolveDep' pool r d = some s

/-- Reachability along dependency edges. -/
def Reaches (pool : Pool) : Reg → Reg → Prop :=
  Relation.ReflTransGen (edgeStep pool)

/-- A root of the traversal: the latest registration of its own name. -/
def IsRoot (pool : Pool) (r : Reg) : Prop :=
  (findLatest pool r.name).map Subtype.val = some r

/-- Registration reachable from some root of the traversal; the fixture graph
of the spec is exactly the set of such registrations. -/
def RootReachable (pool : Pool) (r : Reg) : Prop :=
  ∃ root, IsRoot pool root ∧ Reaches pool root r

/-- The fixture graph contains a dependency cycle. -/
def HasReachableCycle (pool : Pool) : Prop :=
  ∃ r s, RootReachable pool r ∧ edgeStep pool r s ∧ Reaches pool s r

/-- Every dependency name of every registration resolves. -/
def Resolvable (pool : Pool) : Prop :=
  ∀ r ∈ pool.regs, ∀ d ∈ r.deps, (resolveDep' pool r d).isSome

/-- The scope pair of a dependency edge is allowed: a worker-scope fixture
never depends on a test-scope one. -/
def scopePairOK (r s : Reg) : Prop :=
  ¬ (r.scope = .worker ∧ s.scope = .test)

instance (r s : Reg) : Decidable (scopePairOK r s) := by
  unfold scopePairOK
  infer_instance

/-- No dependency edge of the registry violates the scope rule. -/
def NoScopeViolation (pool : Pool) : Prop :=
  ∀ r ∈ pool.regs, ∀ s, edgeStep pool r s → scopePairOK r s

/-- The registry has no dependency cycle at all. -/
def Acyclic (pool : Pool) : Prop :=
  ∀ r ∈ pool.regs, ∀ s, edgeStep pool r s → Reaches pool s r → False

/-- Boolean check for `Resolvable`, for evaluation on concrete pools. -/
def resolvableB (pool : Pool) : Bool :=
  pool.regs.all fun r => r.deps.all fun d => (resolveDep' pool r d).isSome

/-- Boolean check for `NoScopeViolation`, for evaluation on concrete pools. -/
def noScopeViolationB (pool : Pool) : Bool :=
  pool.regs.all fun r => r.deps.all fun d =>
    match resolveDep' pool r d with
    | some s => decide (scopePairOK r s)
    | none => true

/-- All scope-rule checks on edges reachable from `r` succeed; derivable for
every node the traversal completes without error. -/
inductive ScopeSafe (pool : Pool) : Reg → Prop
  | intro (r : Reg)
      (hok : ∀ d ∈ r.deps, ∀ s, resolveDep' pool r d = some s → scopePairOK r s)
      (hrec : ∀ d ∈ r.deps, ∀ s, resolveDep' pool r d = some s → ScopeSafe pool s) :
      ScopeSafe pool r

theorem lastWith_val_pred {l : List Reg} {p : Reg → Bool} {x : Reg}
    (h : (lastWith l p).map Subtype.val = some x) : p x = true := by
  induction l with
  | nil => simp [lastWith] at h
  | cons a as ih =>
    unfold lastWith at h
    cases has : lastWith as p with
    | some y =>
      rw [has] at h
      cases y with
      | mk yv hy =>
        simp at h
        subst h
        apply ih
        rw [has]
        simp
    | none =>
      rw [has] at h
      by_cases hpa : p a
      · rw [if_pos hpa] at h
        simp at h
        subst h
        exact hpa
      · rw [if_neg hpa] at h
        simp at h

theorem lastWith_none {l : List Reg} {p : Reg → Bool}
    (h : lastWith l p = none) : ∀ r ∈ l, p r = false := by
  induction l with
  | nil => intro r hr; simp at hr
  | cons a as ih =>
    unfold lastWith at h
    cases has : lastWith as p with
    | some y => rw [has] at h; simp at h
    | none =>
      rw [has] at h
      by_cases hpa : p a
      · rw [if_pos hpa] at h; simp at h
      · rw [if_neg hpa] at h
        intro r hr
        rcases List.mem_cons.mp hr with rfl | hmem
        · simpa using hpa
        · exact ih has r hmem

theorem lastWith_isSome {l : List Reg} {p : Reg → Bool} {r : Reg}
    (hr : r ∈ l) (hp : p r = true) : (lastWith l p).isSome := by
  cases has : lastWith l p with
  | some y => simp
  | none => exact absurd hp (by simp [lastWith_none has r hr])

theorem resolveDep'_mem {pool : Pool} {r : Reg} {d : String} {s : Reg}
    (h : resolveDep' pool r d = some s) : s ∈ pool.regs := by
  unfold resolveDep' at h
  rw [Option.map_eq_some'] at h
  obtain ⟨a, _, rfl⟩ := h
  exact a.property

theorem edgeStep_target_mem {pool : Pool} {r s : Reg} (h : edgeStep pool r s) :
    s ∈ pool.regs := by
  obtain ⟨d, _, hres⟩ := h
  exact resolveDep'_mem hres

theorem reaches_target_mem {pool : Pool} {r s : Reg} (hr : r ∈ pool.regs)
    (h : Reaches pool r s) : s ∈ pool.regs := by
  induction h with
  | refl => exact hr
  | tail _ hbc _ => exact edgeStep_target_mem hbc

/-- Reversed dependency edge; accessibility along it means no dependency
cycle is reachable from the node. -/
def edgeRev (pool : Pool) : Reg → Reg → Prop := fun s r => edgeStep pool r s

theorem visitD_ok_acc (pool : Pool) (r : Reg) (ds : List String) (stack : List Reg) :
    visitD pool r ds stack = .ok () →
      ∀ d ∈ ds, ∀ s, resolveDep' pool r d = some s → Acc (edgeRev pool) s := by
  induction r, ds, stack using visitD.induct pool with
  | case1 r stack =>
    intro _ d hd
    exact absurd hd (List.not_mem_nil d)
  | case2 r stack d rest hres =>
    intro h
    rw [visitD, hres] at h
    exact absurd h (by simp)
  | case3 r stack d rest dep hres hbad =>
    intro h
    rw [visitD, hres] at h
    dsimp only at h
    rw [if_pos hbad] at h
    exact absurd h (by simp)
  | case4 r stack d rest dep hres hbad hcyc =>
    intro h
    rw [visitD, hres] at h
    dsimp only at h
    rw [if_neg hbad, dif_pos hcyc] at h
    exact absurd h (by simp)
  | case5 r stack d rest dep hres hbad hcyc e herr ih =>
    intro h
    rw [visitD, hres] at h
    dsimp only at h
    rw [if_neg hbad, dif_neg hcyc, herr] at h
    exact absurd h (by simp)
  | case6 r stack d rest dep hres hbad hcyc hok ih1 ih2 =>
    intro h d0 hd0 s hs
    rw [visitD, hres] at h
    dsimp only at h
    rw [if_neg hbad, dif_neg hcyc, hok] at h
    rcases List.mem_cons.mp hd0 with rfl | hmem
    · have hsv : s = dep.val := by
        unfold resolveDep' at hs
        rw [hres] at hs
        simpa using hs.symm
      subst hsv
      constructor
      intro y hy
      obtain ⟨d', hd', hres'⟩ := hy
      exact ih1 hok d' hd' y hres'
    · exact ih2 h d0 hmem s hs

theorem visitD_ok_safe (pool : Pool) (r : Reg) (ds : List String) (stack : List Reg) :
    visitD pool r ds stack = .ok () →
      ∀ d ∈ ds, ∀ s, resolveDep' pool r d = some s →
        scopePairOK r s ∧ ScopeSafe pool s := by
  induction r, ds, stack using visitD.induct pool with
  | case1 r stack =>
    intro _ d hd
    exact absurd hd (List.not_mem_nil d)
  | case2 r stack d rest hres =>
    intro h
    rw [visitD, hres] at h
    exact absurd h (by simp)
  | case3 r stack d rest dep hres hbad =>
    intro h
    rw [visitD, hres] at h
    dsimp only at h
    rw [if_pos hbad] at h
    exact absurd h (by simp)
  | case4 r stack d rest dep hres hbad hcyc =>
    intro h
    rw [visitD, hres] at h
    dsimp only at h
    rw [if_neg hbad, dif_pos hcyc] at h
    exact absurd h (by simp)
  | case5 r stack d rest dep hres hbad hcyc e herr ih =>
    intro h
    rw [visitD, hres] at h
    dsimp only at h
    rw [if_neg hbad, dif_neg hcyc, herr] at h
    exact absurd h (by simp)
  | case6 r stack d rest dep hres hbad hcyc hok ih1 ih2 =>
    intro h d0 hd0 s hs
    rw [visitD, hres] at h
    dsimp only at h
    rw [if_neg hbad, dif_neg hcyc, hok] at h
    rcases List.mem_cons.mp hd0 with rfl | hmem
    · have hsv : s = dep.val := by
        unfold resolveDep' at hs
        rw [hres] at hs
        simpa using hs.symm
      subst hsv
      refine ⟨hbad, ?_⟩
      exact ScopeSafe.intro dep.val
        (fun d' hd' s' hres' => ((ih1 hok) d' hd' s' hres').1)
        (fun d' hd' s' hres' => ((ih1 hok) d' hd' s' hres').2)
    · exact ih2 h d0 hmem s hs

theorem rid_inj {pool : Pool} (hpool : (pool.regs.map Reg.rid).Nodup) {a b : Reg}
    (ha : a ∈ pool.regs) (hb : b ∈ pool.regs) (h : a.rid = b.rid) : a = b :=
  List.inj_on_of_nodup_map hpool ha hb h

/-- Soundness payload of each resolver error: the reported facts are real
facts of the registry.  A reported cycle is nonempty, visits each
registration at most once, follows real dependency edges, and closes back at
its first element; a reported worker-depends-on-test violation is a real
edge with those scopes; a reported unknown parameter really does not
resolve.  Registry build errors are never produced by the resolver. -/
def errSound (pool : Pool) : FixtureError → Prop
  | .unknownParam r d => r ∈ pool.regs ∧ d ∈ r.deps ∧ resolveDep' pool r d = none
  | .workerDependsOnTest w t =>
      w ∈ pool.regs ∧ edgeStep pool w t ∧ w.scope = .worker ∧ t.scope = .test
  | .cycleErr c =>
      c ≠ [] ∧ (c.map Reg.rid).Nodup ∧ List.Chain' (edgeStep pool) c ∧
        (∀ x ∈ c, x ∈ pool.regs) ∧
        ∃ la hd, c.getLast? = some la ∧ c.head? = some hd ∧ edgeStep pool la hd
  | _ => False

theorem visitD_error_sound (pool : Pool) (hpool : (pool.regs.map Reg.rid).Nodup)
    (r : Reg) (ds : List String) (stack : List Reg) :
    ∀ e, visitD pool r ds stack = .error e →
      stack ≠ [] →
      (stack.map Reg.rid).Nodup →
      (∀ x ∈ stack, x ∈ pool.regs) →
      List.Chain' (edgeStep pool) stack →
      stack.getLast? = some r →
      (∀ d ∈ ds, d ∈ r.deps) →
      errSound pool e := by
  induction r, ds, stack using visitD.induct pool with
  | case1 r stack =>
    intro e h
    rw [visitD] at h
    exact absurd h (by simp)
  | case2 r stack d rest hres =>
    intro e h hne hnodup hmem hchain hlast hds
    rw [visitD, hres] at h
    have he : FixtureError.unknownParam r d = e := by simpa using h
    subst he
    refine ⟨hmem r (List.mem_of_mem_getLast? hlast), hds d (List.mem_cons_self d rest), ?_⟩
    unfold resolveDep'
    rw [hres]
    rfl
  | case3 r stack d rest dep hres hbad =>
    intro e h hne hnodup hmem hchain hlast hds
    rw [visitD, hres] at h
    dsimp only at h
    rw [if_pos hbad] at h
    have he : FixtureError.workerDependsOnTest r dep.val = e := by simpa using h
    subst he
    refine ⟨hmem r (List.mem_of_mem_getLast? hlast), ?_, hbad.1, hbad.2⟩
    refine ⟨d, hds d (List.mem_cons_self d rest), ?_⟩
    unfold resolveDep'
    rw [hres]
    rfl
  | case4 r stack d rest dep hres hbad hcyc =>
    intro e h hne hnodup hmem hchain hlast hds
    rw [visitD, hres] at h
    dsimp only at h
    rw [if_neg hbad, dif_pos hcyc] at h
    have he : FixtureError.cycleErr (sliceFrom stack dep.val) = e := by simpa using h
    subst he
    have hedge : edgeStep pool r dep.val := by
      refine ⟨d, hds d (List.mem_cons_self d rest), ?_⟩
      unfold resolveDep'
      rw [hres]
      rfl
    obtain ⟨x, hxmem, hxr⟩ := List.mem_map.mp hcyc
    have hex : ∃ y ∈ stack, (fun s => decide (s.rid = dep.val.rid)) y := by
      exact ⟨x, hxmem, by simp [hxr]⟩
    have hilt : stack.findIdx (fun s => s.rid = dep.val.rid) < stack.length :=
      List.findIdx_lt_length_of_exists hex
    have hpred : (stack[stack.findIdx (fun s => s.rid = dep.val.rid)]).rid = dep.val.rid := by
      simpa using @List.findIdx_getElem _ _ stack hilt
    have hsuf : sliceFrom stack dep.val <:+ stack := List.drop_suffix _ stack
    have hcne : sliceFrom stack dep.val ≠ [] := by
      apply List.length_pos.mp
      unfold sliceFrom
      rw [List.length_drop]
      omega
    refine ⟨hcne, ?_, hchain.suffix hsuf, ?_, ?_⟩
    · unfold sliceFrom
      rw [List.map_drop]
      exact (List.drop_sublist _ _).nodup hnodup
    · intro y hy
      exact hmem y (hsuf.subset hy)
    · refine ⟨r, stack[stack.findIdx (fun s => s.rid = dep.val.rid)], ?_, ?_, ?_⟩
      · obtain ⟨t, ht⟩ := hsuf
        have h1 : stack.getLast? = (sliceFrom stack dep.val).getLast? := by
          conv_lhs => rw [← ht]
          exact List.getLast?_append_of_ne_nil t hcne
        rw [← h1]
        exact hlast
      · unfold sliceFrom
        rw [List.head?_drop]
        exact List.getElem?_eq_getElem hilt
      · have heq : stack[stack.findIdx (fun s => s.rid = dep.val.rid)] = dep.val := by
          apply rid_inj hpool _ dep.property hpred
          exact hmem _ (List.getElem_mem hilt)
        rw [heq]
        exact hedge
  | case5 r stack d rest dep hres hbad hcyc e0 herr ih =>
    intro e h hne hnodup hmem hchain hlast hds
    rw [visitD, hres] at h
    dsimp only at h
    rw [if_neg hbad, dif_neg hcyc, herr] at h
    have he : e0 = e := by simpa using h
    subst he
    have hedge : edgeStep pool r dep.val := by
      refine ⟨d, hds d (List.mem_cons_self d rest), ?_⟩
      unfold resolveDep'
      rw [hres]
      rfl
    apply ih e0 herr
    · simp
    · rw [List.map_append]
      simp only [List.map_cons, List.map_nil]
      rw [List.nodup_append]
      refine ⟨hnodup, List.nodup_singleton _, ?_⟩
      intro a ha hb
      simp at hb
      subst hb
      exact hcyc ha
    · intro x hx
      rcases List.mem_append.mp hx with hx | hx
      · exact hmem x hx
      · simp at hx
        subst hx
        exact dep.property
    · rw [List.chain'_append]
      refine ⟨hchain, List.chain'_singleton _, ?_⟩
      intro x hx y hy
      simp at hy
      subst hy
      rw [hlast] at hx
      simp at hx
      subst hx
      exact hedge
    · simp
    · intro d' hd'
      exact hd'
  | case6 r stack d rest dep hres hbad hcyc hok ih1 ih2 =>
    intro e h hne hnodup hmem hchain hlast hds
    rw [visitD, hres] at h
    dsimp only at h
    rw [if_neg hbad, dif_neg hcyc, hok] at h
    apply ih2 e h hne hnodup hmem hchain hlast
    intro d' hd'
    exact hds d' (List.mem_cons_of_mem d hd')

theorem mem_insertSorted {x s : String} {l : List String} :
    x ∈ insertSorted s l ↔ x = s ∨ x ∈ l := by
  induction l with
  | nil => simp [insertSorted]
  | cons t ts ih =>
    unfold insertSorted
    by_cases h : nameLE s t = true
    · rw [if_pos h]
      simp
    · rw [if_neg h]
      simp only [List.mem_cons, ih]
      tauto

theorem mem_sortNames {x : String} {l : List String} : x ∈ sortNames l ↔ x ∈ l := by
  induction l with
  | nil => simp [sortNames]
  | cons t ts ih =>
    rw [show sortNames (t :: ts) = insertSorted t (sortNames ts) from rfl,
      mem_insertSorted, ih]
    simp

theorem mem_rootsOf {pool : Pool} {n : String} :
    n ∈ rootsOf pool ↔ ∃ r ∈ pool.regs, r.name = n := by
  unfold rootsOf
  rw [mem_sortNames, List.mem_dedup, List.mem_map]

theorem goRoots_ok_visit (pool : Pool) (ns : List String) (h : goRoots pool ns = .ok ()) :
    ∀ n ∈ ns, ∀ root : {r : Reg // r ∈ pool.regs}, findLatest pool n = some root →
      visitD pool root.val root.val.deps [root.val] = .ok () := by
  induction ns with
  | nil =>
    intro n hn
    simp at hn
  | cons m ms ih =>
    intro n hn root hroot
    unfold goRoots at h
    rcases List.mem_cons.mp hn with rfl | hmem
    · rw [hroot] at h
      dsimp only at h
      cases hv : visitD pool root.val root.val.deps [root.val] with
      | error e =>
        rw [hv] at h
        exact absurd h (by simp)
      | ok u =>
        cases u
        rfl
    · cases hf : findLatest pool m with
      | none =>
        rw [hf] at h
        dsimp only at h
        exact ih h n hmem root hroot
      | some rt =>
        rw [hf] at h
        dsimp only at h
        cases hv : visitD pool rt.val rt.val.deps [rt.val] with
        | error e =>
          rw [hv] at h
          exact absurd h (by simp)
        | ok u =>
          cases u
          rw [hv] at h
          dsimp only at h
          exact ih h n hmem root hroot

theorem goRoots_error_sound (pool : Pool) (hpool : (pool.regs.map Reg.rid).Nodup)
    (ns : List String) (e : FixtureError) (h : goRoots pool ns = .error e) :
    errSound pool e := by
  induction ns with
  | nil =>
    rw [goRoots] at h
    exact absurd h (by simp)
  | cons m ms ih =>
    unfold goRoots at h
    cases hf : findLatest pool m with
    | none =>
      rw [hf] at h
      dsimp only at h
      exact ih h
    | some rt =>
      rw [hf] at h
      dsimp only at h
      cases hv : visitD pool rt.val rt.val.deps [rt.val] with
      | error e0 =>
        rw [hv] at h
        dsimp only at h
        have he : e0 = e := by simpa using h
        subst he
        apply visitD_error_sound pool hpool rt.val rt.val.deps [rt.val] e0 hv
        · simp
        · simp
        · intro x hx
          simp at hx
          subst hx
          exact rt.property
        · exact List.chain'_singleton _
        · simp
        · intro d hd
          exact hd
      | ok u =>
        cases u
        rw [hv] at h
        dsimp only at h
        exact ih h

theorem validate_error_sound (pool : Pool) (hpool : (pool.regs.map Reg.rid).Nodup)
    (e : FixtureError) (h : validate pool = .error e) : errSound pool e :=
  goRoots_error_sound pool hpool (rootsOf pool) e h

theorem isRoot_unpack {pool : Pool} {root : Reg} (h : IsRoot pool root) :
    ∃ hm : root ∈ pool.regs, findLatest pool root.name = some ⟨root, hm⟩ := by
  unfold IsRoot at h
  rw [Option.map_eq_some'] at h
  obtain ⟨a, ha, hval⟩ := h
  cases a with
  | mk av ap =>
    cases hval
    exact ⟨ap, ha⟩

theorem validate_ok_acc (pool : Pool) (h : validate pool = .ok ()) :
    ∀ root, IsRoot pool root → Acc (edgeRev pool) root := by
  intro root hroot
  obtain ⟨hm, hfind⟩ := isRoot_unpack hroot
  have hname : root.name ∈ rootsOf pool := mem_rootsOf.mpr ⟨root, hm, rfl⟩
  have hvis := goRoots_ok_visit pool (rootsOf pool) h root.name hname ⟨root, hm⟩ hfind
  constructor
  intro s hs
  obtain ⟨d, hd, hres⟩ := hs
  exact visitD_ok_acc pool root root.deps [root] hvis d hd s hres

theorem acc_edge {pool : Pool} {r s : Reg} (h : Acc (edgeRev pool) r)
    (e : edgeStep pool r s) : Acc (edgeRev pool) s :=
  h.inv e

theorem acc_reaches {pool : Pool} {r s : Reg} (h : Acc (edgeRev pool) r)
    (hr : Reaches pool r s) : Acc (edgeRev pool) s := by
  induction hr with
  | refl => exact h
  | tail _ hbc ih => exact acc_edge ih hbc

theorem acc_no_cycle {pool : Pool} {r : Reg} (hacc : Acc (edgeRev pool) r) :
    ∀ s, edgeStep pool r s → Reaches pool s r → False := by
  induction hacc with
  | intro a _ ih =>
    intro s hedge hreach
    rcases hreach.cases_head with heq | ⟨t, hst, htr⟩
    · subst heq
      exact ih s hedge s hedge Relation.ReflTransGen.refl
    · have hts : Reaches pool t s := htr.tail hedge
      exact ih s hedge t hst hts

theorem scopeSafe_edge {pool : Pool} {r s : Reg} (h : ScopeSafe pool r)
    (e : edgeStep pool r s) : ScopeSafe pool s := by
  cases h with
  | intro r hok hrec =>
    obtain ⟨d, hd, hres⟩ := e
    exact hrec d hd s hres

theorem scopeSafe_reaches {pool : Pool} {r s : Reg} (h : ScopeSafe pool r)
    (hr : Reaches pool r s) : ScopeSafe pool s := by
  induction hr with
  | refl => exact h
  | tail _ hbc ih => exact scopeSafe_edge ih hbc

theorem scopeSafe_pairOK {pool : Pool} {a b : Reg} (h : ScopeSafe pool a)
    (e : edgeStep pool a b) : scopePairOK a b := by
  cases h with
  | intro a hok _ =>
    obtain ⟨d, hd, hres⟩ := e
    exact hok d hd b hres

theorem validate_ok_scopeSafe (pool : Pool) (h : validate pool = .ok ()) :
    ∀ root, IsRoot pool root → ScopeSafe pool root := by
  intro root hroot
  obtain ⟨hm, hfind⟩ := isRoot_unpack hroot
  have hname : root.name ∈ rootsOf pool := mem_rootsOf.mpr ⟨root, hm, rfl⟩
  have hvis := goRoots_ok_visit pool (rootsOf pool) h root.name hname ⟨root, hm⟩ hfind
  exact ScopeSafe.intro root
    (fun d hd s hres => (visitD_ok_safe pool root root.deps [root] hvis d hd s hres).1)
    (fun d hd s hres => (visitD_ok_safe pool root root.deps [root] hvis d hd s hres).2)

theorem chain'_reaches {pool : Pool} :
    ∀ {c : List Reg}, List.Chain' (edgeStep pool) c →
      ∀ {hd la : Reg}, c.head? = some hd → c.getLast? = some la → Reaches pool hd la := by
  intro c
  induction c with
  | nil =>
    intro _ hd la h
    simp at h
  | cons x xs ih =>
    intro hchain hd la hh hl
    simp at hh
    subst hh
    cases xs with
    | nil =>
      simp at hl
      subst hl
      exact Relation.ReflTransGen.refl
    | cons y ys =>
      rw [List.chain'_cons] at hchain
      rw [List.getLast?_cons_cons] at hl
      have hrest := ih hchain.2 (show (y :: ys).head? = some y by simp) hl
      exact Relation.ReflTransGen.head hchain.1 hrest

theorem reaches_scope_flip {pool : Pool} {w t : Reg} (hreach : Reaches pool w t)
    (ht : t.scope = .test) :
    w.scope = .worker →
      ∃ a b, Reaches pool w a ∧ edgeStep pool a b ∧
        a.scope = .worker ∧ b.scope = .test := by
  induction hreach using Relation.ReflTransGen.head_induction_on with
  | refl =>
    intro hw
    rw [hw] at ht
    exact absurd ht (by simp)
  | @head a c hac hcb ih =>
    intro hw
    cases hcs : c.scope with
    | worker =>
      obtain ⟨p, q, hpa, hedge, hps, hqs⟩ := ih hcs
      exact ⟨p, q, Relation.ReflTransGen.head hac hpa, hedge, hps, hqs⟩
    | test =>
      exact ⟨a, c, Relation.ReflTransGen.refl, hac, hw, hcs⟩

theorem cycleNames_closed {c : List Reg} (h : c ≠ []) :
    (cycleNames c).head? = (cycleNames c).getLast? := by
  cases c with
  | nil => exact absurd rfl h
  | cons x xs =>
    show ((x :: xs).map Reg.name ++ [x.name]).head? = ((x :: xs).map Reg.name ++ [x.name]).getLast?
    have h1 : ((x :: xs).map Reg.name ++ [x.name]).head? = some x.name := by simp
    have h2 : ((x :: xs).map Reg.name ++ [x.name]).getLast? = some x.name :=
      List.getLast?_concat _
    rw [h1, h2]

theorem resolvableB_iff (pool : Pool) : resolvableB pool = true ↔ Resolvable pool := by
  unfold resolvableB Resolvable
  simp [List.all_eq_true]

theorem noScopeViolationB_iff (pool : Pool) :
    noScopeViolationB pool = true ↔ NoScopeViolation pool := by
  unfold noScopeViolationB NoScopeViolation
  simp only [List.all_eq_true]
  constructor
  · intro h r hr s hs
    obtain ⟨d, hd, hres⟩ := hs
    have hx := h r hr d hd
    rw [hres] at hx
    simpa using hx
  · intro h r hr d hd
    cases hres : resolveDep' pool r d with
    | none => simp
    | some s =>
      have hx : scopePairOK r s := h r hr s ⟨d, hd, hres⟩
      simpa using hx

/-- C1: for every dependency graph containing a cycle (a registry whose every
dependency name resolves, with no worker-on-test edge, in which some
registration of the fixture graph lies on a dependency cycle), `validate`
terminates with a cycle error.  The reported cycle is an ordered chain of
registrations that is nonempty, repetition-free, follows real dependency
edges, and closes back at its starting registration, so the rendered chain of
names starts and ends at the same name; the rendered message joins the names
with the arrow separator and each edge is annotated with the introducing
registration's location via `cycleLocs`.  Re-running `validate` on the same
input reports the same cycle. -/
theorem C1_cycle_report (pool : Pool)
    (hpool : (pool.regs.map Reg.rid).Nodup)
    (hresv : Resolvable pool)
    (hnsv : NoScopeViolation pool)
    (hcycle : HasReachableCycle pool) :
    ∃ c, validate pool = .error (.cycleErr c) ∧
      c ≠ [] ∧
      (c.map Reg.rid).Nodup ∧
      List.Chain' (edgeStep pool) c ∧
      (∃ la hd, c.getLast? = some la ∧ c.head? = some hd ∧ edgeStep pool la hd) ∧
      (cycleNames c).head? = (cycleNames c).getLast? ∧
      errorMessage (.cycleErr c) =
        "Fixtures " ++ String.intercalate " -> " ((cycleNames c).map quoteName) ++
          " form a dependency cycle:" ∧
      (∀ out, validate pool = out → out = .error (.cycleErr c)) := by
  cases hval : validate pool with
  | ok u =>
    cases u
    exfalso
    obtain ⟨r, s, ⟨root, hroot, hrr⟩, hedge, hreach⟩ := hcycle
    have haccroot := validate_ok_acc pool hval root hroot
    have haccr := acc_reaches haccroot hrr
    exact acc_no_cycle haccr s hedge hreach
  | error e =>
    have hsound := validate_error_sound pool hpool e hval
    cases e with
    | alreadyRegistered n sc p q => exact hsound.elim
    | selfRefNoBase n l => exact hsound.elim
    | unknownParam r d =>
      obtain ⟨hrm, hdm, hnone⟩ := hsound
      have hx := hresv r hrm d hdm
      rw [hnone] at hx
      simp at hx
    | workerDependsOnTest w t =>
      obtain ⟨hwm, hedge, hws, hts⟩ := hsound
      exact absurd ⟨hws, hts⟩ (hnsv w hwm t hedge)
    | cycleErr c =>
      obtain ⟨hcne, hnd, hch, hcm, hclose⟩ := hsound
      refine ⟨c, rfl, hcne, hnd, hch, hclose, cycleNames_closed hcne, rfl, ?_⟩
      intro out hout
      exact hout.symm

/-- C2: in every fixture graph in which a worker-scope registration depends,
directly or transitively (including through overrides), on a test-scope
registration — with the graph's own invariants: every dependency resolves and
the graph is acyclic — resolution fails with the worker-fixture-cannot-depend
error before any test runs, naming a real violating edge and rendering the
message `worker fixture "<name>" cannot depend on a test fixture "<dep>"
defined in <loc>.`. -/
theorem C2_worker_scope_rejection (pool : Pool)
    (hpool : (pool.regs.map Reg.rid).Nodup)
    (hresv : Resolvable pool)
    (hacyc : Acyclic pool)
    (hviol : ∃ w t, RootReachable pool w ∧ w.scope = .worker ∧
      Reaches pool w t ∧ t.scope = .test) :
    ∃ w' t', validate pool = .error (.workerDependsOnTest w' t') ∧
      edgeStep pool w' t' ∧ w'.scope = .worker ∧ t'.scope = .test ∧
      errorMessage (.workerDependsOnTest w' t') =
        "worker fixture " ++ quoteName w'.name ++ " cannot depend on a test fixture " ++
          quoteName t'.name ++ " defined in " ++ t'.loc ++ "." := by
  cases hval : validate pool with
  | ok u =>
    cases u
    exfalso
    obtain ⟨w, t, ⟨root, hroot, hrw⟩, hws, hwt, hts⟩ := hviol
    obtain ⟨a, b, hwa, hedge, has, hbs⟩ := reaches_scope_flip hwt hts hws
    have hsafe := validate_ok_scopeSafe pool hval root hroot
    have hsafea := scopeSafe_reaches hsafe (hrw.trans hwa)
    exact (scopeSafe_pairOK hsafea hedge) ⟨has, hbs⟩
  | error e =>
    have hsound := validate_error_sound pool hpool e hval
    cases e with
    | alreadyRegistered n sc p q => exact hsound.elim
    | selfRefNoBase n l => exact hsound.elim
    | unknownParam r d =>
      obtain ⟨hrm, hdm, hnone⟩ := hsound
      have hx := hresv r hrm d hdm
      rw [hnone] at hx
      simp at hx
    | cycleErr c =>
      exfalso
      obtain ⟨hcne, hnd, hch, hcm, la, hd0, hla, hhd, hedge⟩ := hsound
      have hreach : Reaches pool hd0 la := chain'_reaches hch hhd hla
      have hlam : la ∈ pool.regs := hcm la (List.mem_of_mem_getLast? hla)
      exact hacyc la hlam hd0 hedge hreach
    | workerDependsOnTest w t =>
      obtain ⟨hwm, hedge, hws, hts⟩ := hsound
      exact ⟨w, t, rfl, hedge, hws, hts, rfl⟩

/-- Registration pool of the repository test `should detect fixture
dependency cycle`: fixtures `good1, foo, bar, good2, baz, qux` with the
cycle `foo → bar → baz → qux → foo`, all test-scope, declared at
`x.spec.ts:5:29`. -/
def cgood1 : Reg := ⟨0, "good1", .test, [], "x.spec.ts:5:29", none⟩

def cfoo : Reg := ⟨1, "foo", .test, ["bar"], "x.spec.ts:5:29", none⟩

def cbar : Reg := ⟨2, "bar", .test, ["baz"], "x.spec.ts:5:29", none⟩

def cgood2 : Reg := ⟨3, "good2", .test, ["good1"], "x.spec.ts:5:29", none⟩

def cbaz : Reg := ⟨4, "baz", .test, ["qux"], "x.spec.ts:5:29", none⟩

def cqux : Reg := ⟨5, "qux", .test, ["foo"], "x.spec.ts:5:29", none⟩

def cyclePool : Pool := ⟨[cgood1, cfoo, cbar, cgood2, cbaz, cqux]⟩

/-- Witness for C1 on the dependency-cycle test pool. -/
theorem C1_cycle_report_witness :
    ∃ c, validate cyclePool = .error (.cycleErr c) ∧
      c ≠ [] ∧
      (c.map Reg.rid).Nodup ∧
      List.Chain' (edgeStep cyclePool) c ∧
      (∃ la hd, c.getLast? = some la ∧ c.head? = some hd ∧ edgeStep cyclePool la hd) ∧
      (cycleNames c).head? = (cycleNames c).getLast? ∧
      errorMessage (.cycleErr c) =
        "Fixtures " ++ String.intercalate " -> " ((cycleNames c).map quoteName) ++
          " form a dependency cycle:" ∧
      (∀ out, validate cyclePool = out → out = .error (.cycleErr c)) :=
  C1_cycle_report cyclePool (by decide)
    ((resolvableB_iff cyclePool).mp (by decide))
    ((noScopeViolationB_iff cyclePool).mp (by decide))
    ⟨cbar, cbaz,
      ⟨cbar, by unfold IsRoot; decide, Relation.ReflTransGen.refl⟩,
      ⟨"baz", by decide, by decide⟩,
      Relation.ReflTransGen.head (⟨"qux", by decide, by decide⟩ :
          edgeStep cyclePool cbaz cqux)
        (Relation.ReflTransGen.head (⟨"foo", by decide, by decide⟩ :
            edgeStep cyclePool cqux cfoo)
          (Relation.ReflTransGen.head (⟨"bar", by decide, by decide⟩ :
              edgeStep cyclePool cfoo cbar)
            Relation.ReflTransGen.refl))⟩

/-- Registration pool of the repository test `should throw when worker
fixture depends on a test fixture`: test-scope `foo` at `f.spec.ts:5:29`,
worker-scope `bar` depending on `foo`. -/
def wfoo : Reg := ⟨0, "foo", .test, [], "f.spec.ts:5:29", none⟩

def wbar : Reg := ⟨1, "bar", .worker, ["foo"], "f.spec.ts:9:29", none⟩

def workerPool : Pool := ⟨[wfoo, wbar]⟩

theorem workerPool_acyclic : Acyclic workerPool := by
  intro r hr s hs hreach
  have hrc : r = wfoo ∨ r = wbar := by
    simpa [workerPool] using hr
  rcases hrc with rfl | rfl
  · obtain ⟨d, hd, _⟩ := hs
    simp [wfoo] at hd
  · obtain ⟨d, hd, hres⟩ := hs
    have hdc : d = "foo" := by simpa [wbar] using hd
    subst hdc
    have hcomp : resolveDep' workerPool wbar "foo" = some wfoo := by decide
    rw [hcomp] at hres
    have hsv : wfoo = s := by simpa using hres
    subst hsv
    rcases hreach.cases_head with heq | ⟨c, hc, _⟩
    · exact absurd heq (by decide)
    · obtain ⟨d', hd', _⟩ := hc
      simp [wfoo] at hd'

/-- Witness for C2 on the worker-depends-on-test test pool. -/
theorem C2_worker_scope_rejection_witness :
    ∃ w' t', validate workerPool = .error (.workerDependsOnTest w' t') ∧
      edgeStep workerPool w' t' ∧ w'.scope = .worker ∧ t'.scope = .test ∧
      errorMessage (.workerDependsOnTest w' t') =
        "worker fixture " ++ quoteName w'.name ++ " cannot depend on a test fixture " ++
          quoteName t'.name ++ " defined in " ++ t'.loc ++ "." :=
  C2_worker_scope_rejection workerPool (by decide)
    ((resolvableB_iff workerPool).mp (by decide))
    workerPool_acyclic
    ⟨wbar, wfoo,
      ⟨wbar, by unfold IsRoot; decide, Relation.ReflTransGen.refl⟩,
      rfl,
      Relation.ReflTransGen.single ⟨"foo", by decide, by decide⟩,
      rfl⟩

theorem findLatest_name {pool : Pool} {n : String} {x : {r : Reg // r ∈ pool.regs}}
    (h : findLatest pool n = some x) : x.val.name = n := by
  have h2 : (lastWith pool.regs (fun s => s.name = n)).map Subtype.val = some x.val := by
    unfold findLatest at h
    rw [h]
    rfl
  have h3 := lastWith_val_pred h2
  simpa using h3

theorem findLatest_none_names {pool : Pool} {n : String} (h : findLatest pool n = none) :
    ∀ r ∈ pool.regs, r.name ≠ n := by
  intro r hr
  have h2 := lastWith_none h r hr
  simpa using h2

/-- All registrations of a name share one scope: a name's scope is immutable
once first declared. -/
def PoolScopesOK (pool : Pool) : Prop :=
  ∀ r ∈ pool.regs, ∀ s ∈ pool.regs, r.name = s.name → r.scope = s.scope

theorem addDecl_ok {pool : Pool} {k : Nat} {d : Decl} {p2 : Pool} {k2 : Nat}
    (h : addDecl pool k d = .ok (p2, k2)) :
    ∃ nr : Reg, p2.regs = pool.regs ++ [nr] ∧ nr.name = d.name ∧ nr.scope = d.scope ∧
      (findLatest pool d.name = none → ¬ d.name ∈ d.deps) ∧
      (∀ x, findLatest pool d.name = some x → x.val.scope = d.scope) := by
  unfold addDecl at h
  cases hf : findLatest pool d.name with
  | some prev =>
    rw [hf] at h
    dsimp only at h
    by_cases hsc : prev.val.scope ≠ d.scope
    · rw [if_pos hsc] at h
      exact absurd h (by simp)
    · rw [if_neg hsc] at h
      cases h
      refine ⟨⟨k, d.name, d.scope, d.deps, d.loc, some prev.val.rid⟩, rfl, rfl, rfl, ?_, ?_⟩
      · intro hnone
        exact absurd hnone (by simp)
      · intro x hx
        have hpx : prev = x := Option.some.inj hx
        subst hpx
        exact not_ne_iff.mp hsc
  | none =>
    rw [hf] at h
    dsimp only at h
    by_cases hself : d.name ∈ d.deps
    · rw [if_pos hself] at h
      exact absurd h (by simp)
    · rw [if_neg hself] at h
      cases h
      refine ⟨⟨k, d.name, d.scope, d.deps, d.loc, none⟩, rfl, rfl, rfl, fun _ => hself, ?_⟩
      intro x hx
      exact absurd hx (by simp)

theorem addDecl_conflict {pool : Pool} {k : Nat} {d : Decl} {x : {r : Reg // r ∈ pool.regs}}
    (hf : findLatest pool d.name = some x) (hsc : x.val.scope ≠ d.scope) :
    addDecl pool k d = .error (.alreadyRegistered d.name x.val.scope x.val.loc d.loc) := by
  unfold addDecl
  rw [hf]
  dsimp only
  rw [if_pos hsc]

theorem addDecl_selfRef {pool : Pool} {k : Nat} {d : Decl}
    (hf : findLatest pool d.name = none) (hself : d.name ∈ d.deps) :
    addDecl pool k d = .error (.selfRefNoBase d.name d.loc) := by
  unfold addDecl
  rw [hf]
  dsimp only
  rw [if_pos hself]

theorem buildGo_append (xs ys : List Decl) :
    ∀ pool k, buildGo pool k (xs ++ ys) =
      match buildGo pool k xs with
      | .error e => .error e
      | .ok (p, k') => buildGo p k' ys := by
  induction xs with
  | nil =>
    intro pool k
    rfl
  | cons d ds ih =>
    intro pool k
    show buildGo pool k (d :: (ds ++ ys)) = _
    simp only [buildGo]
    cases had : addDecl pool k d with
    | error e => rfl
    | ok pk =>
      cases pk with
      | mk p2 k2 =>
        dsimp only
        exact ih p2 k2

theorem buildGo_inv (ds : List Decl) :
    ∀ pool k p' k', buildGo pool k ds = .ok (p', k') →
      PoolScopesOK pool →
      PoolScopesOK p' ∧
      (∀ r ∈ pool.regs, r ∈ p'.regs) ∧
      (∀ d ∈ ds, ∃ r ∈ p'.regs, r.name = d.name ∧ r.scope = d.scope) ∧
      (∀ r ∈ p'.regs, r ∈ pool.regs ∨ ∃ d ∈ ds, d.name = r.name) := by
  induction ds with
  | nil =>
    intro pool k p' k' h hok
    simp only [buildGo, Except.ok.injEq, Prod.mk.injEq] at h
    obtain ⟨h1, _⟩ := h
    subst h1
    refine ⟨hok, fun r hr => hr, ?_, fun r hr => Or.inl hr⟩
    intro d hd
    simp at hd
  | cons d dd ih =>
    intro pool k p' k' h hok
    simp only [buildGo] at h
    cases had : addDecl pool k d with
    | error e =>
      rw [had] at h
      exact absurd h (by simp)
    | ok pk =>
      cases pk with
      | mk p2 k2 =>
        rw [had] at h
        dsimp only at h
        obtain ⟨nr, hregs, hname, hscope, _, hprevsc⟩ := addDecl_ok had
        have hok2 : PoolScopesOK p2 := by
          intro r hr s hs hnames
          rw [hregs] at hr hs
          have hscd : ∀ q ∈ pool.regs, q.name = d.name → q.scope = d.scope := by
            intro q hq hqn
            cases hfp : findLatest pool d.name with
            | none => exact absurd hqn (findLatest_none_names hfp q hq)
            | some x =>
              have hx1 : x.val.scope = d.scope := hprevsc x hfp
              have hx2 : x.val.name = d.name := findLatest_name hfp
              have := hok q hq x.val x.property (by rw [hqn, hx2])
              rw [this, hx1]
          rcases List.mem_append.mp hr with hro | hrn
          · rcases List.mem_append.mp hs with hso | hsn
            · exact hok r hro s hso hnames
            · have hsn' : s = nr := by simpa using hsn
              rw [hsn', hscope]
              exact hscd r hro (by rw [hnames, hsn', hname])
          · have hrn' : r = nr := by simpa using hrn
            rcases List.mem_append.mp hs with hso | hsn
            · rw [hrn', hscope]
              exact (hscd s hso (by rw [← hnames, hrn', hname])).symm
            · have hsn' : s = nr := by simpa using hsn
              rw [hrn', hsn']
        obtain ⟨ha, hb, hc, hd2⟩ := ih p2 k2 p' k' h hok2
        refine ⟨ha, ?_, ?_, ?_⟩
        · intro r hr
          apply hb
          rw [hregs]
          exact List.mem_append_left _ hr
        · intro d0 hd0
          rcases List.mem_cons.mp hd0 with rfl | hmem
          · refine ⟨nr, hb nr ?_, hname, hscope⟩
            rw [hregs]
            exact List.mem_append_right _ (by simp)
          · exact hc d0 hmem
        · intro r hr
          rcases hd2 r hr with hin | ⟨d0, hd0, hn⟩
          · rw [hregs] at hin
            rcases List.mem_append.mp hin with ho | hn2
            · exact Or.inl ho
            · have : r = nr := by simpa using hn2
              subst this
              exact Or.inr ⟨d, by simp, hname.symm⟩
          · exact Or.inr ⟨d0, List.mem_cons_of_mem d hd0, hn⟩

/-- C5: redeclaring an already-registered fixture name with a different scope
always fails at build time, regardless of chain depth and in both directions.
First part: a successfully built registry never contains two declarations of
one name with different scopes — so any conflicting redeclaration makes the
build fail.  Second part: when the chain up to the redeclaration builds
successfully, the build fails exactly with the already-registered error
naming the previous declaration's scope and location and the new
declaration's location.  Third part: that error renders the message
`Fixture "<name>" has already been registered as a { scope: '<scope>' }
fixture defined in <loc>.` naming both locations (the second location is
carried in the error value). -/
theorem C5_scope_conflict :
    (∀ decls pool, buildPool decls = .ok pool →
      ∀ d1 ∈ decls, ∀ d2 ∈ decls, d1.name = d2.name → d1.scope = d2.scope) ∧
    (∀ pre (d : Decl) post p1 k1, buildGo ⟨[]⟩ 0 pre = .ok (p1, k1) →
      ∀ x, findLatest p1 d.name = some x → x.val.scope ≠ d.scope →
        buildPool (pre ++ d :: post) =
          .error (.alreadyRegistered d.name x.val.scope x.val.loc d.loc)) ∧
    (∀ n sc prevLoc newLoc, errorMessage (.alreadyRegistered n sc prevLoc newLoc) =
      "Fixture " ++ quoteName n ++ " has already been registered as a \x7b scope: \x27" ++
        scopeName sc ++ "\x27 \x7d fixture defined in " ++ prevLoc ++ ".") := by
  refine ⟨?_, ?_, fun n sc p q => rfl⟩
  · intro decls pool h d1 h1 d2 h2 hn
    unfold buildPool at h
    cases hb : buildGo ⟨[]⟩ 0 decls with
    | error e =>
      rw [hb] at h
      exact absurd h (by simp)
    | ok pk =>
      cases pk with
      | mk p0 k0 =>
        rw [hb] at h
        dsimp only at h
        have hempty : PoolScopesOK ⟨[]⟩ := by
          intro r hr
          simp at hr
        obtain ⟨hsOK, _, hrec, _⟩ := buildGo_inv decls ⟨[]⟩ 0 p0 k0 hb hempty
        obtain ⟨r1, hr1, hr1n, hr1s⟩ := hrec d1 h1
        obtain ⟨r2, hr2, hr2n, hr2s⟩ := hrec d2 h2
        have hsc := hsOK r1 hr1 r2 hr2 (by rw [hr1n, hr2n, hn])
        rw [← hr1s, ← hr2s, hsc]
  · intro pre d post p1 k1 hpre x hx hsc
    unfold buildPool
    rw [buildGo_append pre (d :: post) ⟨[]⟩ 0, hpre]
    dsimp only
    simp only [buildGo]
    rw [addDecl_conflict hx hsc]

/-- C8: a fixture declaration whose dependency list references its own name,
with no prior declaration of that name anywhere earlier in the chain, always
makes the build fail — with the `references itself, but does not have a base
implementation` error carrying the declaring call site when the chain up to
it builds, and in any case never with a successful (silent no-op) build. -/
theorem C8_self_reference (pre : List Decl) (d : Decl) (post : List Decl)
    (hself : d.name ∈ d.deps)
    (hnoprior : ∀ d' ∈ pre, d'.name ≠ d.name) :
    (∀ p1 k1, buildGo ⟨[]⟩ 0 pre = .ok (p1, k1) →
      buildPool (pre ++ d :: post) = .error (.selfRefNoBase d.name d.loc)) ∧
    (buildPool (pre ++ d :: post)).isOk = false ∧
    errorMessage (.selfRefNoBase d.name d.loc) =
      "Fixture " ++ quoteName d.name ++
        " references itself, but does not have a base implementation." := by
  have hmain : ∀ p1 k1, buildGo ⟨[]⟩ 0 pre = .ok (p1, k1) →
      buildPool (pre ++ d :: post) = .error (.selfRefNoBase d.name d.loc) := by
    intro p1 k1 hpre
    have hempty : PoolScopesOK ⟨[]⟩ := by
      intro r hr
      simp at hr
    obtain ⟨_, _, _, hcov⟩ := buildGo_inv pre ⟨[]⟩ 0 p1 k1 hpre hempty
    have hf : findLatest p1 d.name = none := by
      cases hfx : findLatest p1 d.name with
      | none => rfl
      | some x =>
        exfalso
        have hxn := findLatest_name hfx
        rcases hcov x.val x.property with hemp | ⟨d0, hd0, hdn⟩
        · simp at hemp
        · exact hnoprior d0 hd0 (by rw [hdn, hxn])
    unfold buildPool
    rw [buildGo_append pre (d :: post) ⟨[]⟩ 0, hpre]
    dsimp only
    simp only [buildGo]
    rw [addDecl_selfRef hf hself]
  refine ⟨hmain, ?_, rfl⟩
  cases hb : buildGo ⟨[]⟩ 0 pre with
  | error e =>
    unfold buildPool
    rw [buildGo_append pre (d :: post) ⟨[]⟩ 0, hb]
    rfl
  | ok pk =>
    cases pk with
    | mk p1 k1 =>
      rw [hmain p1 k1 hb]
      rfl

/-- Witness for C5 on the scope-conflict test scenarios, in both directions:
worker first then test, and test first then worker. -/
theorem C5_scope_conflict_witness :
    buildPool [⟨"foo", FScope.worker, [], "e.spec.ts:5:30"⟩,
        ⟨"foo", FScope.test, [], "e.spec.ts:10:30"⟩] =
      .error (.alreadyRegistered "foo" FScope.worker "e.spec.ts:5:30" "e.spec.ts:10:30") ∧
    buildPool [⟨"foo", FScope.test, [], "e.spec.ts:5:30"⟩,
        ⟨"foo", FScope.worker, [], "e.spec.ts:10:30"⟩] =
      .error (.alreadyRegistered "foo" FScope.test "e.spec.ts:5:30" "e.spec.ts:10:30") ∧
    errorMessage (.alreadyRegistered "foo" FScope.worker "e.spec.ts:5:30" "e.spec.ts:10:30") =
      "Fixture \"foo\" has already been registered as a \x7b scope: \x27worker\x27 \x7d fixture defined in e.spec.ts:5:30." :=
  ⟨C5_scope_conflict.2.1 [⟨"foo", FScope.worker, [], "e.spec.ts:5:30"⟩]
      ⟨"foo", FScope.test, [], "e.spec.ts:10:30"⟩ []
      ⟨[⟨0, "foo", FScope.worker, [], "e.spec.ts:5:30", none⟩]⟩ 1 rfl
      ⟨⟨0, "foo", FScope.worker, [], "e.spec.ts:5:30", none⟩, by decide⟩ (by decide) (by decide),
   C5_scope_conflict.2.1 [⟨"foo", FScope.test, [], "e.spec.ts:5:30"⟩]
      ⟨"foo", FScope.worker, [], "e.spec.ts:10:30"⟩ []
      ⟨[⟨0, "foo", FScope.test, [], "e.spec.ts:5:30", none⟩]⟩ 1 rfl
      ⟨⟨0, "foo", FScope.test, [], "e.spec.ts:5:30", none⟩, by decide⟩ (by decide) (by decide),
   C5_scope_conflict.2.2 "foo" FScope.worker "e.spec.ts:5:30" "e.spec.ts:10:30"⟩

/-- Witness for C8 on the non-defined-super-worker-fixture test scenario. -/
theorem C8_self_reference_witness :
    buildPool [⟨"foo", FScope.worker, ["foo"], "a.spec.ts:5:30"⟩] =
      .error (.selfRefNoBase "foo" "a.spec.ts:5:30") ∧
    errorMessage (.selfRefNoBase "foo" "a.spec.ts:5:30") =
      "Fixture \"foo\" references itself, but does not have a base implementation." := by
  have h := C8_self_reference [] ⟨"foo", FScope.worker, ["foo"], "a.spec.ts:5:30"⟩ []
    (by decide) (by intro d' hd'; simp at hd')
  exact ⟨h.1 ⟨[]⟩ 0 rfl, h.2.2⟩

/-- Modelled from the spec: timing profile of a single fixture instance — its
setup duration and teardown duration (the lifecycle executor source is not in
the surfaced tree). -/
structure FixtureSpec where
  name : String
  setupTime : Nat
  teardownTime : Nat
deriving DecidableEq

/-- Timeout errors of the lifecycle executor, naming the phase. -/
inductive RunError where
  | timeoutSettingUp (ms : Nat) (name : String)
  | timeoutTest (ms : Nat)
  | timeoutTearingDown (ms : Nat) (name : String)
deriving DecidableEq

def runErrorMessage : RunError → String
  | .timeoutSettingUp ms n =>
      "Test timeout of " ++ toString ms ++ "ms exceeded while setting up " ++ quoteName n ++ "."
  | .timeoutTest ms => "Test timeout of " ++ toString ms ++ "ms exceeded."
  | .timeoutTearingDown ms n =>
      "Test timeout of " ++ toString ms ++ "ms exceeded while tearing down " ++ quoteName n ++ "."

/-- Result of running one test against one fixture instance. -/
structure RunResult where
  errors : List RunError
  teardownStarted : Bool
  bodyStarted : Bool
deriving DecidableEq

/-- Modelled from the spec: the lifecycle executor's per-phase timeout
accounting for one fixture instance around one test body.  Phases run
sequentially (`SettingUp`, then the body once the instance is `Active`, then
`TearingDown`) against the test's timeout budget counted from the start.  If
setup does not finish within the budget, the run fails with the
setting-up-phase timeout and neither the body nor teardown is attempted —
the instance never became `Active`, so there is no value to release.
Otherwise the body runs; if the budget expires during the body, a plain test
timeout is recorded and teardown still begins, against a fresh remaining-time
budget.  If the budget instead expires during teardown, the
tearing-down-phase timeout is recorded. -/
def runFixtureTest (budget : Nat) (fx : FixtureSpec) (bodyTime : Nat) : RunResult :=
  if budget < fx.setupTime then
    { errors := [.timeoutSettingUp budget fx.name], teardownStarted := false,
      bodyStarted := false }
  else if budget < fx.setupTime + bodyTime then
    { errors := [.timeoutTest budget] ++
        (if budget < fx.teardownTime then [.timeoutTearingDown budget fx.name] else []),
      teardownStarted := true, bodyStarted := true }
  else if budget < fx.setupTime + bodyTime + fx.teardownTime then
    { errors := [.timeoutTearingDown budget fx.name], teardownStarted := true,
      bodyStarted := true }
  else
    { errors := [], teardownStarted := true, bodyStarted := true }

/-- C3: if a fixture's setup phase exceeds the timeout budget, its teardown
is never attempted and the only reported error names the setting-up phase;
if instead setup and body fit the budget but the teardown phase exceeds it,
the reported error is the tearing-down timeout and no setting-up timeout is
reported. -/
theorem C3_timeout_phases (budget : Nat) (fx : FixtureSpec) (bodyTime : Nat) :
    (budget < fx.setupTime →
      (runFixtureTest budget fx bodyTime).teardownStarted = false ∧
      (runFixtureTest budget fx bodyTime).errors = [.timeoutSettingUp budget fx.name] ∧
      runErrorMessage (.timeoutSettingUp budget fx.name) =
        "Test timeout of " ++ toString budget ++ "ms exceeded while setting up " ++
          quoteName fx.name ++ ".") ∧
    (fx.setupTime + bodyTime ≤ budget →
      budget < fx.setupTime + bodyTime + fx.teardownTime →
      (runFixtureTest budget fx bodyTime).errors = [.timeoutTearingDown budget fx.name] ∧
      (runFixtureTest budget fx bodyTime).teardownStarted = true ∧
      ¬ (RunError.timeoutSettingUp budget fx.name) ∈ (runFixtureTest budget fx bodyTime).errors ∧
      runErrorMessage (.timeoutTearingDown budget fx.name) =
        "Test timeout of " ++ toString budget ++ "ms exceeded while tearing down " ++
          quoteName fx.name ++ ".") := by
  constructor
  · intro h
    unfold runFixtureTest
    rw [if_pos h]
    exact ⟨rfl, rfl, rfl⟩
  · intro h1 h2
    unfold runFixtureTest
    rw [if_neg (by omega), if_neg (by omega), if_pos h2]
    refine ⟨rfl, rfl, ?_, rfl⟩
    simp

/-- Witness for C3 on the repository's timeout-test scenarios: setup of
1500ms against a 1000ms budget (setup timeout, no teardown), and a body of
800ms with a teardown of 800ms against a 1000ms budget (teardown timeout,
not setup timeout). -/
theorem C3_timeout_phases_witness :
    ((runFixtureTest 1000 ⟨"fixture", 1500, 0⟩ 0).teardownStarted = false ∧
      (runFixtureTest 1000 ⟨"fixture", 1500, 0⟩ 0).errors =
        [.timeoutSettingUp 1000 "fixture"] ∧
      runErrorMessage (.timeoutSettingUp 1000 "fixture") =
        "Test timeout of " ++ toString 1000 ++ "ms exceeded while setting up " ++
          quoteName "fixture" ++ ".") ∧
    ((runFixtureTest 1000 ⟨"fixture", 0, 800⟩ 800).errors =
        [.timeoutTearingDown 1000 "fixture"] ∧
      (runFixtureTest 1000 ⟨"fixture", 0, 800⟩ 800).teardownStarted = true ∧
      ¬ (RunError.timeoutSettingUp 1000 "fixture") ∈
        (runFixtureTest 1000 ⟨"fixture", 0, 800⟩ 800).errors ∧
      runErrorMessage (.timeoutTearingDown 1000 "fixture") =
        "Test timeout of " ++ toString 1000 ++ "ms exceeded while tearing down " ++
          quoteName "fixture" ++ ".") ∧
    runErrorMessage (.timeoutSettingUp 1000 "fixture") =
      "Test timeout of 1000ms exceeded while setting up \"fixture\"." ∧
    runErrorMessage (.timeoutTearingDown 1000 "fixture") =
      "Test timeout of 1000ms exceeded while tearing down \"fixture\"." :=
  ⟨(C3_timeout_phases 1000 ⟨"fixture", 1500, 0⟩ 0).1 (by decide),
   (C3_timeout_phases 1000 ⟨"fixture", 0, 800⟩ 800).2 (by decide) (by decide),
   by decide, by decide⟩

/-- Modelled from the spec: the executor records an error on the owning test
result only if an identical error is not already recorded — deduplication is
the executor's responsibility. -/
def recordError (errs : List String) (e : String) : List String :=
  if e ∈ errs then errs else errs ++ [e]

/-- Folding the raw error events (which may contain duplicates) into the test
result's error list. -/
def collectErrors (events : List String) : List String :=
  events.foldl recordError []

/-- Modelled from the spec: the reporter prints the executor's recorded
errors as they are — it performs no deduplication of its own. -/
def reporterOutput (errs : List String) : List String := errs

/-- Modelled from the spec: a fixture throwing (or timing out) during
teardown after a passing test surfaces its error to the executor twice —
once from the instance's teardown and once when the process later reports it
again internally. -/
def teardownErrorEvents (e : String) : List String := [e, e]

theorem foldl_recordError (events : List String) :
    ∀ acc, acc.Nodup →
      (events.foldl recordError acc).Nodup ∧
      (∀ e, e ∈ events.foldl recordError acc ↔ e ∈ acc ∨ e ∈ events) := by
  induction events with
  | nil =>
    intro acc h
    exact ⟨h, fun e => by simp⟩
  | cons x xs ih =>
    intro acc h
    have hstep : (recordError acc x).Nodup := by
      unfold recordError
      by_cases hx : x ∈ acc
      · rw [if_pos hx]
        exact h
      · rw [if_neg hx]
        rw [List.nodup_append]
        exact ⟨h, List.nodup_singleton x, by intro a ha hb; simp at hb; subst hb; exact hx ha⟩
    obtain ⟨h1, h2⟩ := ih (recordError acc x) hstep
    refine ⟨h1, ?_⟩
    intro e
    rw [show List.foldl recordError acc (x :: xs) =
      List.foldl recordError (recordError acc x) xs from rfl]
    rw [h2 e]
    unfold recordError
    by_cases hx : x ∈ acc
    · rw [if_pos hx]
      simp only [List.mem_cons]
      constructor
      · rintro (he | he)
        · exact Or.inl he
        · exact Or.inr (Or.inr he)
      · rintro (he | rfl | he2)
        · exact Or.inl he
        · exact Or.inl hx
        · exact Or.inr he2
    · rw [if_neg hx]
      simp only [List.mem_append, List.mem_cons, List.mem_singleton]
      tauto

/-- C4: a teardown error raised after a passing test appears exactly once in
the final report even when the raw event stream surfaces it more than once —
in particular for the doubled event stream of a teardown error — and the
deduplication is performed by the executor (`collectErrors`), not by the
reporter, which passes the recorded list through unchanged. -/
theorem C4_teardown_error_once (e : String) (events : List String) (he : e ∈ events) :
    (reporterOutput (collectErrors events)).count e = 1 ∧
    collectErrors (teardownErrorEvents e) = [e] ∧
    (∀ errs, reporterOutput errs = errs) := by
  have h := foldl_recordError events [] List.nodup_nil
  refine ⟨?_, ?_, fun errs => rfl⟩
  · have hmem : e ∈ collectErrors events := (h.2 e).mpr (Or.inr he)
    exact List.count_eq_one_of_mem h.1 hmem
  · simp [collectErrors, teardownErrorEvents, recordError]

/-- Witness for C4 on the doubled teardown-error event stream of the
repository test `should not report fixture teardown error twice`. -/
theorem C4_teardown_error_once_witness :
    (reporterOutput (collectErrors ["Error: Oh my error", "Error: Oh my error"])).count
      "Error: Oh my error" = 1 ∧
    collectErrors (teardownErrorEvents "Error: Oh my error") = ["Error: Oh my error"] ∧
    (∀ errs, reporterOutput errs = errs) :=
  C4_teardown_error_once "Error: Oh my error" ["Error: Oh my error", "Error: Oh my error"]
    (by decide)

theorem string_ext {a b : String} (h : a.data = b.data) : a = b := by
  cases a
  cases b
  simp at h
  rw [h]

/-- Modelled from the spec: a worker-scope fixture override value — a
serializable option value (string, number, boolean) or a value the digest
cannot reconcile. -/
inductive OVal where
  | str (s : String)
  | num (n : Nat)
  | bool (b : Bool)
  | nonSerializable
deriving DecidableEq

/-- Tagged, injective serialization of an override value; `none` for a value
the digest cannot reconcile. -/
def encodeOVal : OVal → Option (List Char)
  | .str s => some ('s' :: s.data)
  | .num n => some ('n' :: List.replicate n '1')
  | .bool b => some ['b', if b then '1' else '0']
  | .nonSerializable => none

/-- Decoder inverting `encodeOVal`, witnessing its injectivity. -/
def decodeOVal : List Char → Option OVal
  | 's' :: cs => some (.str ⟨cs⟩)
  | 'n' :: cs => some (.num cs.length)
  | 'b' :: '1' :: [] => some (.bool true)
  | 'b' :: '0' :: [] => some (.bool false)
  | _ => none

theorem decode_encodeOVal {v : OVal} {w : List Char} (h : encodeOVal v = some w) :
    decodeOVal w = some v := by
  cases v with
  | str s =>
    have hw : 's' :: s.data = w := by simpa [encodeOVal] using h
    subst hw
    rfl
  | num n =>
    have hw : 'n' :: List.replicate n '1' = w := by simpa [encodeOVal] using h
    subst hw
    show some (OVal.num (List.replicate n '1').length) = some (OVal.num n)
    rw [List.length_replicate]
  | bool b =>
    cases b with
    | true =>
      have hw : ['b', '1'] = w := by simpa [encodeOVal] using h
      subst hw
      rfl
    | false =>
      have hw : ['b', '0'] = w := by simpa [encodeOVal] using h
      subst hw
      rfl
  | nonSerializable => simp [encodeOVal] at h

theorem encodeOVal_inj {v v' : OVal} {w : List Char} (h : encodeOVal v = some w)
    (h' : encodeOVal v' = some w) : v = v' := by
  have h1 := decode_encodeOVal h
  have h2 := decode_encodeOVal h'
  rw [h1] at h2
  exact Option.some.inj h2

/-- Length-prefixed chunk: the chunk's length in unary, a separator, then the
chunk's characters.  Concatenations of chunks decode unambiguously. -/
def encChunkL (cs : List Char) : List Char :=
  List.replicate cs.length '|' ++ ':' :: cs

/-- Concatenation of length-prefixed chunks. -/
def encList : List (List Char) → List Char
  | [] => []
  | c :: cs => encChunkL c ++ encList cs

theorem replicate_colon_inj : ∀ {m : Nat} {n : Nat} {x y : List Char},
    List.replicate m '|' ++ ':' :: x = List.replicate n '|' ++ ':' :: y → m = n ∧ x = y := by
  intro m
  induction m with
  | zero =>
    intro n x y h
    cases n with
    | zero => simpa using h
    | succ k =>
      simp only [List.replicate_succ, List.replicate, List.nil_append, List.cons_append,
        List.cons.injEq] at h
      exact absurd h.1 (by decide)
  | succ k ih =>
    intro n x y h
    cases n with
    | zero =>
      simp only [List.replicate_succ, List.replicate, List.nil_append, List.cons_append,
        List.cons.injEq] at h
      exact absurd h.1 (by decide)
    | succ j =>
      simp only [List.replicate_succ, List.cons_append, List.cons.injEq] at h
      obtain ⟨-, h2⟩ := h
      obtain ⟨h3, h4⟩ := ih h2
      exact ⟨by rw [h3], h4⟩

theorem encChunkL_append_inj {a b u v : List Char}
    (h : encChunkL a ++ u = encChunkL b ++ v) : a = b ∧ u = v := by
  unfold encChunkL at h
  rw [List.append_assoc, List.append_assoc] at h
  simp only [List.cons_append] at h
  obtain ⟨hlen, hav⟩ := replicate_colon_inj h
  exact List.append_inj hav hlen

theorem encList_ne_nil (c : List Char) (cs : List (List Char)) : encList (c :: cs) ≠ [] := by
  unfold encList encChunkL
  simp

theorem encList_inj : ∀ {xs ys : List (List Char)}, encList xs = encList ys → xs = ys := by
  intro xs
  induction xs with
  | nil =>
    intro ys h
    cases ys with
    | nil => rfl
    | cons c cs => exact absurd h.symm (encList_ne_nil c cs)
  | cons c cs ih =>
    intro ys h
    cases ys with
    | nil => exact absurd h (encList_ne_nil c cs)
    | cons d ds =>
      unfold encList at h
      obtain ⟨h1, h2⟩ := encChunkL_append_inj h
      rw [h1, ih h2]

/-- One override as a chunk: the length-prefixed fixture name followed by the
encoded value. -/
def encodePair (p : String × OVal) : Option (List Char) :=
  (encodeOVal p.2).map (fun v => encChunkL p.1.data ++ v)

/-- Serialization of the worker-scope override set; `none` as soon as any
value cannot be reconciled into the digest. -/
def serializeOverrides : List (String × OVal) → Option (List (List Char))
  | [] => some []
  | p :: ps =>
    match encodePair p with
    | none => none
    | some c =>
      match serializeOverrides ps with
      | none => none
      | some cs => some (c :: cs)

/-- Modelled from the spec: `hash(workerScopedOverrides, projectId,
repeatEachIndex) → string`, the structural digest of the worker-scoped
configuration (the hashing source is not in the surfaced tree).  Values the
digest cannot reconcile surface as the fatal inconsistent-options error
rather than being silently resolved. -/
def hashConfig (ov : List (String × OVal)) (projectId : String) (repeatEachIndex : Nat) :
    Except String String :=
  match serializeOverrides ov with
  | none => .error "Playwright detected inconsistent test.use() options."
  | some cs => .ok ⟨encList (cs ++ [projectId.data, List.replicate repeatEachIndex '1'])⟩

/-- Modelled from the spec: the dispatcher treats equal hashes as safe to
share one worker process. -/
def canShareWorker (h₁ h₂ : String) : Prop := h₁ = h₂

theorem encodePair_inj {p p' : String × OVal} {c : List Char}
    (h : encodePair p = some c) (h' : encodePair p' = some c) : p = p' := by
  unfold encodePair at h h'
  rw [Option.map_eq_some'] at h h'
  obtain ⟨v, hv, hc⟩ := h
  obtain ⟨v', hv', hc'⟩ := h'
  have hcc : encChunkL p.1.data ++ v = encChunkL p'.1.data ++ v' := by rw [hc, hc']
  obtain ⟨h1, h2⟩ := encChunkL_append_inj hcc
  subst h2
  have hname : p.1 = p'.1 := string_ext h1
  have hval : p.2 = p'.2 := encodeOVal_inj hv hv'
  exact Prod.ext hname hval

theorem serializeOverrides_inj : ∀ {ov ov' : List (String × OVal)} {cs},
    serializeOverrides ov = some cs → serializeOverrides ov' = some cs → ov = ov' := by
  intro ov
  induction ov with
  | nil =>
    intro ov' cs h h'
    have hcs : cs = [] := by simpa [serializeOverrides] using h.symm
    subst hcs
    cases ov' with
    | nil => rfl
    | cons q qs =>
      exfalso
      unfold serializeOverrides at h'
      cases hq : encodePair q with
      | none =>
        rw [hq] at h'
        simp at h'
      | some c =>
        rw [hq] at h'
        dsimp only at h'
        cases hqs : serializeOverrides qs with
        | none =>
          rw [hqs] at h'
          simp at h'
        | some cs0 =>
          rw [hqs] at h'
          simp at h'
  | cons q qs ih =>
    intro ov' cs h h'
    unfold serializeOverrides at h
    cases hq : encodePair q with
    | none =>
      rw [hq] at h
      simp at h
    | some c =>
      rw [hq] at h
      dsimp only at h
      cases hqs : serializeOverrides qs with
      | none =>
        rw [hqs] at h
        simp at h
      | some cs0 =>
        rw [hqs] at h
        dsimp only at h
        have hcs : cs = c :: cs0 := by simpa using h.symm
        subst hcs
        cases ov' with
        | nil =>
          exfalso
          simp [serializeOverrides] at h'
        | cons q' qs' =>
          unfold serializeOverrides at h'
          cases hq' : encodePair q' with
          | none =>
            rw [hq'] at h'
            simp at h'
          | some c' =>
            rw [hq'] at h'
            dsimp only at h'
            cases hqs' : serializeOverrides qs' with
            | none =>
              rw [hqs'] at h'
              simp at h'
            | some cs0' =>
              rw [hqs'] at h'
              have hcc : c' = c ∧ cs0' = cs0 := by simpa using h'
              obtain ⟨rfl, rfl⟩ := hcc
              rw [encodePair_inj hq hq', ih hqs hqs']

theorem serializeOverrides_none {ov : List (String × OVal)}
    (h : ∃ pr ∈ ov, pr.2 = OVal.nonSerializable) : serializeOverrides ov = none := by
  induction ov with
  | nil =>
    obtain ⟨pr, hpr, _⟩ := h
    simp at hpr
  | cons q qs ih =>
    obtain ⟨pr, hpr, hns⟩ := h
    rcases List.mem_cons.mp hpr with rfl | hpr2
    · unfold serializeOverrides
      have hq : encodePair pr = none := by
        unfold encodePair
        rw [hns]
        rfl
      rw [hq]
    · unfold serializeOverrides
      cases hq : encodePair q with
      | none => rfl
      | some c =>
        dsimp only
        rw [ih ⟨pr, hpr2, hns⟩]

/-- C6: the worker hash is pure and deterministic — equal logical inputs give
equal digests and the dispatcher may share one worker process for them;
structurally different serializable inputs always give different digests
(the digest is injective); and an override value the digest cannot reconcile
raises the fatal inconsistent-options error instead of being silently
resolved. -/
theorem C6_worker_hash (ov ov' : List (String × OVal)) (p p' : String) (k k' : Nat) :
    (ov = ov' → p = p' → k = k' → hashConfig ov p k = hashConfig ov' p' k') ∧
    (∀ s s', hashConfig ov p k = .ok s → hashConfig ov' p' k' = .ok s' →
      ov = ov' ∧ p = p' ∧ k = k' → canShareWorker s s') ∧
    (∀ s, hashConfig ov p k = .ok s → hashConfig ov' p' k' = .ok s →
      ov = ov' ∧ p = p' ∧ k = k') ∧
    ((∃ pr ∈ ov, pr.2 = OVal.nonSerializable) →
      hashConfig ov p k = .error "Playwright detected inconsistent test.use() options.") := by
  refine ⟨?_, ?_, ?_, ?_⟩
  · intro h1 h2 h3
    rw [h1, h2, h3]
  · intro s s' hs hs' ⟨h1, h2, h3⟩
    rw [h1, h2, h3, hs'] at hs
    exact (Except.ok.inj hs).symm
  · intro s hs hs'
    unfold hashConfig at hs hs'
    cases hso : serializeOverrides ov with
    | none =>
      rw [hso] at hs
      simp at hs
    | some cs =>
      rw [hso] at hs
      dsimp only at hs
      cases hso' : serializeOverrides ov' with
      | none =>
        rw [hso'] at hs'
        simp at hs'
      | some cs' =>
        rw [hso'] at hs'
        dsimp only at hs'
        have h1 : (⟨encList (cs ++ [p.data, List.replicate k '1'])⟩ : String) = s :=
          Except.ok.inj hs
        have h2 : (⟨encList (cs' ++ [p'.data, List.replicate k' '1'])⟩ : String) = s :=
          Except.ok.inj hs'
        rw [← h2] at h1
        have h3 : encList (cs ++ [p.data, List.replicate k '1']) =
            encList (cs' ++ [p'.data, List.replicate k' '1']) := by
          have := congrArg String.data h1
          simpa using this
        have h4 := encList_inj h3
        have hlen : cs.length = cs'.length := by
          have := congrArg List.length h4
          simp at this
          omega
        obtain ⟨h5, h6⟩ := List.append_inj h4 hlen
        have h7 : p.data = p'.data ∧ List.replicate k '1' = List.replicate k' '1' := by
          simpa using h6
        rw [← h5] at hso'
        refine ⟨serializeOverrides_inj hso hso', string_ext h7.1, ?_⟩
        have := congrArg List.length h7.2
        simpa using this
  · intro h
    unfold hashConfig
    rw [serializeOverrides_none h]

/-- Witness for C6: identical override sets (the shared `foo` worker fixture
of the two-files test) hash equal and may share a worker; a non-serializable
override value raises the inconsistent-options error. -/
theorem C6_worker_hash_witness :
    (([("foo", OVal.str "foo")] : List (String × OVal)) = [("foo", OVal.str "foo")] ∧
      "p1" = "p1" ∧ (0 : Nat) = 0) ∧
    hashConfig [("foo", OVal.nonSerializable)] "p1" 0 =
      .error "Playwright detected inconsistent test.use() options." := by
  obtain ⟨s, hs⟩ : ∃ s, hashConfig [("foo", OVal.str "foo")] "p1" 0 = .ok s := ⟨_, rfl⟩
  refine ⟨(C6_worker_hash [("foo", OVal.str "foo")] [("foo", OVal.str "foo")] "p1" "p1" 0 0).2.2.1
    s hs hs, ?_⟩
  exact (C6_worker_hash [("foo", OVal.nonSerializable)] [] "p1" "" 0 0).2.2.2
    ⟨("foo", OVal.nonSerializable), by simp, rfl⟩

/-- Identifier of one executed test: declaring file, line, column and title,
as carried in the worker's diagnostics. -/
structure TestId where
  file : String
  line : Nat
  col : Nat
  title : String
deriving DecidableEq

/-- Rendering of a test identifier in the crash/timeout diagnostic. -/
def formatTestId (t : TestId) : String :=
  t.file ++ ":" ++ toString t.line ++ ":" ++ toString t.col ++ " › " ++ t.title

/-- Last `n` elements of a list. -/
def lastN (n : Nat) (l : List α) : List α := l.drop (l.length - n)

/-- Modelled from the spec: the worker's rolling record of the most recent
test identifiers, bounded to the last 10. -/
def pushRecent (recent : List TestId) (t : TestId) : List TestId :=
  lastN 10 (recent ++ [t])

/-- Messages with which a worker-scope teardown timeout is reported. -/
def workerTeardownMessage (ms : Nat) (name : String) : String :=
  "Worker teardown timeout of " ++ toString ms ++ "ms exceeded while tearing down " ++
    quoteName name ++ "."

/-- Diagnostic block listing how many tests the failed worker ran and the
retained recent test identifiers. -/
def workerDebugInfo (ranCount : Nat) (recent : List TestId) : String :=
  "Failed worker ran " ++ toString ranCount ++ " tests, last " ++ toString recent.length ++
    " tests were:\n" ++ String.intercalate "\n" (recent.map formatTestId)

/-- Outcome of one worker process: per-test results in execution order and
the worker-level teardown failures. -/
structure WorkerRunReport where
  results : List (TestId × Bool)
  teardownFailures : List String
deriving DecidableEq

/-- Modelled from the spec: a worker running its tests strictly sequentially
(each passing on its own), maintaining the rolling record of recent test
identifiers, then tearing down its worker-scope fixture once at shutdown.
When the teardown never resolves within the worker teardown budget, exactly
one worker-level failure is emitted: the teardown-timeout message followed by
the debug info listing the retained recent tests. -/
def runWorker (budget : Nat) (fixtureName : String) (teardownHangs : Bool)
    (tests : List TestId) : WorkerRunReport :=
  let recent := tests.foldl pushRecent []
  { results := tests.map (fun t => (t, true)),
    teardownFailures :=
      if teardownHangs then
        [workerTeardownMessage budget fixtureName ++ "\n\n" ++
          workerDebugInfo tests.length recent]
      else [] }

theorem lastN_eq_self {l : List α} {n : Nat} (h : l.length ≤ n) : lastN n l = l := by
  unfold lastN
  rw [Nat.sub_eq_zero_of_le h, List.drop_zero]

theorem lastN_length_le (n : Nat) (l : List α) : (lastN n l).length ≤ n := by
  unfold lastN
  rw [List.length_drop]
  omega

theorem lastN_of_suffix {t s l : List α} (h : t ++ s = l) {n : Nat} (hn : n ≤ s.length) :
    lastN n l = lastN n s := by
  subst h
  unfold lastN
  rw [List.length_append]
  have harith : t.length + s.length - n = t.length + (s.length - n) := by omega
  rw [harith, List.drop_append]

theorem lastN_suffix (n : Nat) (l : List α) : ∃ t, t ++ lastN n l = l :=
  ⟨l.take (l.length - n), List.take_append_drop _ l⟩

theorem foldl_pushRecent (tests : List TestId) :
    ∀ acc, acc.length ≤ 10 → tests.foldl pushRecent acc = lastN 10 (acc ++ tests) := by
  induction tests with
  | nil =>
    intro acc hle
    rw [List.append_nil]
    exact (lastN_eq_self hle).symm
  | cons t ts ih =>
    intro acc hle
    rw [show List.foldl pushRecent acc (t :: ts) =
      List.foldl pushRecent (pushRecent acc t) ts from rfl]
    rw [ih (pushRecent acc t) (lastN_length_le 10 (acc ++ [t]))]
    have hX : acc ++ t :: ts = (acc ++ [t]) ++ ts := by simp
    rw [hX]
    by_cases hc : (acc ++ [t]).length ≤ 10
    · rw [show pushRecent acc t = lastN 10 (acc ++ [t]) from rfl, lastN_eq_self hc]
    · push_neg at hc
      obtain ⟨tp, htp⟩ := lastN_suffix 10 (acc ++ [t])
      have hlen : (lastN 10 (acc ++ [t])).length = 10 := by
        unfold lastN
        rw [List.length_drop]
        omega
      have hsuf : tp ++ (lastN 10 (acc ++ [t]) ++ ts) = (acc ++ [t]) ++ ts := by
        rw [← List.append_assoc, htp]
      rw [lastN_of_suffix hsuf (by rw [List.length_append, hlen]; omega)]
      rfl

/-- C7: a worker whose worker-scope fixture teardown never resolves, after
sequentially running 20 tests, reports exactly one worker-teardown-timeout
failure while all 20 tests are individually reported as passed, and the
failure's diagnostic is the teardown-timeout message followed by a
`Failed worker ran 20 tests` header listing the last 10 retained test
identifiers in `<file>:<line>:<col> › <title>` form. -/
theorem C7_worker_teardown_diagnostic (budget : Nat) (fname : String) (tests : List TestId)
    (hn : tests.length = 20) :
    (runWorker budget fname true tests).teardownFailures.length = 1 ∧
    (runWorker budget fname true tests).results = tests.map (fun t => (t, true)) ∧
    (∀ t ∈ tests, (t, true) ∈ (runWorker budget fname true tests).results) ∧
    (runWorker budget fname true tests).teardownFailures =
      [workerTeardownMessage budget fname ++ "\n\n" ++
        workerDebugInfo 20 (lastN 10 tests)] ∧
    (lastN 10 tests).length = 10 ∧
    workerDebugInfo 20 (lastN 10 tests) =
      "Failed worker ran 20 tests, last 10 tests were:\n" ++
        String.intercalate "\n" ((lastN 10 tests).map formatTestId) := by
  have hfold : tests.foldl pushRecent [] = lastN 10 tests := by
    have h := foldl_pushRecent tests [] (by simp)
    rw [List.nil_append] at h
    exact h
  have hlen : (lastN 10 tests).length = 10 := by
    unfold lastN
    rw [List.length_drop]
    omega
  refine ⟨rfl, rfl, ?_, ?_, hlen, ?_⟩
  · intro t ht
    exact List.mem_map_of_mem (fun t => (t, true)) ht
  · show [workerTeardownMessage budget fname ++ "\n\n" ++
        workerDebugInfo tests.length (tests.foldl pushRecent [])] = _
    rw [hfold, hn]
  · unfold workerDebugInfo
    rw [hlen]
    rfl

/-- The 20 sequential tests of the repository test `should report worker
fixture teardown with debug info`. -/
def c7tests : List TestId :=
  [⟨"a.spec.ts", 12, 9, "good0"⟩, ⟨"a.spec.ts", 12, 9, "good1"⟩,
   ⟨"a.spec.ts", 12, 9, "good2"⟩, ⟨"a.spec.ts", 12, 9, "good3"⟩,
   ⟨"a.spec.ts", 12, 9, "good4"⟩, ⟨"a.spec.ts", 12, 9, "good5"⟩,
   ⟨"a.spec.ts", 12, 9, "good6"⟩, ⟨"a.spec.ts", 12, 9, "good7"⟩,
   ⟨"a.spec.ts", 12, 9, "good8"⟩, ⟨"a.spec.ts", 12, 9, "good9"⟩,
   ⟨"a.spec.ts", 12, 9, "good10"⟩, ⟨"a.spec.ts", 12, 9, "good11"⟩,
   ⟨"a.spec.ts", 12, 9, "good12"⟩, ⟨"a.spec.ts", 12, 9, "good13"⟩,
   ⟨"a.spec.ts", 12, 9, "good14"⟩, ⟨"a.spec.ts", 12, 9, "good15"⟩,
   ⟨"a.spec.ts", 12, 9, "good16"⟩, ⟨"a.spec.ts", 12, 9, "good17"⟩,
   ⟨"a.spec.ts", 12, 9, "good18"⟩, ⟨"a.spec.ts", 12, 9, "good19"⟩]

set_option maxRecDepth 8192 in
/-- Witness for C7 on the 20-test worker-teardown scenario, with the
diagnostic evaluated to the exact reported text. -/
theorem C7_worker_teardown_diagnostic_witness :
    (runWorker 1000 "fixture" true c7tests).teardownFailures.length = 1 ∧
    (∀ t ∈ c7tests, (t, true) ∈ (runWorker 1000 "fixture" true c7tests).results) ∧
    (lastN 10 c7tests).length = 10 ∧
    (runWorker 1000 "fixture" true c7tests).teardownFailures =
      ["Worker teardown timeout of 1000ms exceeded while tearing down \"fixture\".\n\nFailed worker ran 20 tests, last 10 tests were:\na.spec.ts:12:9 › good10\na.spec.ts:12:9 › good11\na.spec.ts:12:9 › good12\na.spec.ts:12:9 › good13\na.spec.ts:12:9 › good14\na.spec.ts:12:9 › good15\na.spec.ts:12:9 › good16\na.spec.ts:12:9 › good17\na.spec.ts:12:9 › good18\na.spec.ts:12:9 › good19"] :=
  ⟨(C7_worker_teardown_diagnostic 1000 "fixture" c7tests (by decide)).1,
   (C7_worker_teardown_diagnostic 1000 "fixture" c7tests (by decide)).2.2.1,
   (C7_worker_teardown_diagnostic 1000 "fixture" c7tests (by decide)).2.2.2.2.1,
   by decide⟩

/-- CLI-override payload of the serialized loader data; its type lives in a
file not surfaced here and its contents are irrelevant to the claims, so it
is modelled as an opaque record of key-value pairs. -/
structure ConfigCLIOverrides where
  entries : List (String × String)
deriving DecidableEq

/-- Translated from `ipc.ts`: `SerializedLoaderData`. -/
structure SerializedLoaderData where
  configFile : Option String
  configDir : String
  configCLIOverrides : ConfigCLIOverrides
deriving DecidableEq

/-- Translated from `ipc.ts`: `WorkerInitParams`. -/
structure WorkerInitParams where
  workerIndex : Nat
  parallelIndex : Nat
  repeatEachIndex : Nat
  projectId : String
  loader : SerializedLoaderData
deriving DecidableEq

/-- Translated from `ipc.ts`: `TestEntry` is `{testId, retry}`. -/
structure TestEntry where
  testId : String
  retry : Nat
deriving DecidableEq

/-- Translated from `ipc.ts`: `RunPayload`. -/
structure RunPayload where
  file : String
  entries : List TestEntry
deriving DecidableEq

/-- Translated from `dispatcher.ts`'s `TestGroup` as used by `WorkerHost`:
the fields `workerHash`, `projectId` and `repeatEachIndex` are read by the
constructor; the remaining dispatch fields are carried opaquely. -/
structure TestGroup where
  workerHash : String
  projectId : String
  repeatEachIndex : Nat
  file : String
  entries : List TestEntry
deriving DecidableEq

/-- Translated from the source `WorkerHost` class: `readonly parallelIndex`,
`readonly workerIndex`, `private _hash`, `currentTestId` (mutable, initially
`null`), `private _params`, and the process name `worker-<index>` passed to
the `ProcessHost` super constructor. -/
structure WorkerHost where
  parallelIndex : Nat
  workerIndex : Nat
  hashField : String
  currentTestId : Option String
  paramsField : WorkerInitParams
  processName : String
deriving DecidableEq

/-- Effects a `WorkerHost` method sends to its process, recorded as data. -/
inductive HostEffect where
  | startRunner (params : WorkerInitParams)
  | sendMessageNoReply (method : String) (payload : RunPayload)
deriving DecidableEq

/-- Translated from the source `WorkerHost` constructor: reads and
post-increments the module-global `lastWorkerIndex` counter (passed here as
explicit state), stores the group's `workerHash`, the parallel index, and the
`WorkerInitParams` built from the test group and loader. -/
def mkWorkerHost (testGroup : TestGroup) (parallelIndex : Nat)
    (loader : SerializedLoaderData) (lastWorkerIndex : Nat) : WorkerHost × Nat :=
  let workerIndex := lastWorkerIndex
  ({ parallelIndex := parallelIndex
     workerIndex := workerIndex
     hashField := testGroup.workerHash
     currentTestId := none
     paramsField :=
       { workerIndex := workerIndex
         parallelIndex := parallelIndex
         repeatEachIndex := testGroup.repeatEachIndex
         projectId := testGroup.projectId
         loader := loader }
     processName := "worker-" ++ toString workerIndex },
   lastWorkerIndex + 1)

/-- Translated from the source: `start()` only forwards `_params` to the
inherited `startRunner`; it assigns no field of the host. -/
def WorkerHost.start (h : WorkerHost) : WorkerHost × HostEffect :=
  (h, .startRunner h.paramsField)

/-- Translated from the source: `runTestGroup` is a fire-and-forget
`sendMessageNoReply` with the run payload; it assigns no field of the
host. -/
def WorkerHost.runTestGroup (h : WorkerHost) (runPayload : RunPayload) :
    WorkerHost × HostEffect :=
  (h, .sendMessageNoReply "runTestGroup" runPayload)

/-- Translated from the source: `hash()` returns `_hash`. -/
def WorkerHost.hash (h : WorkerHost) : String := h.hashField

/-- Construction of a sequence of `WorkerHost`s in one process, threading the
module-global `lastWorkerIndex` counter. -/
def spawnAll : List (TestGroup × Nat × SerializedLoaderData) → Nat → List WorkerHost × Nat
  | [], c => ([], c)
  | (g, pidx, ld) :: rest, c =>
    let hc := mkWorkerHost g pidx ld c
    let rec' := spawnAll rest hc.2
    (hc.1 :: rec'.1, rec'.2)

theorem spawnAll_indices (reqs : List (TestGroup × Nat × SerializedLoaderData)) :
    ∀ c, ((spawnAll reqs c).1.map WorkerHost.workerIndex = List.range' c reqs.length) ∧
      (spawnAll reqs c).2 = c + reqs.length := by
  induction reqs with
  | nil =>
    intro c
    exact ⟨rfl, rfl⟩
  | cons r rest ih =>
    intro c
    obtain ⟨g, pidx, ld⟩ := r
    obtain ⟨h1, h2⟩ := ih (c + 1)
    constructor
    · show (mkWorkerHost g pidx ld c).1.workerIndex ::
        (spawnAll rest (c + 1)).1.map WorkerHost.workerIndex = List.range' c (rest.length + 1)
      rw [h1, List.range'_succ]
      rfl
    · show (spawnAll rest (c + 1)).2 = c + (rest.length + 1)
      rw [h2]
      omega

/-- C9: `WorkerHost` construction draws `workerIndex` from a process-global
counter starting at 0 and post-incremented on every construction: the hosts
constructed in one process carry the indices 0, 1, 2, … in construction
order, so the indices are strictly increasing and no two hosts share one. -/
theorem C9_worker_index_allocation (reqs : List (TestGroup × Nat × SerializedLoaderData)) :
    ((spawnAll reqs 0).1.map WorkerHost.workerIndex = List.range reqs.length) ∧
    List.Pairwise (· < ·) ((spawnAll reqs 0).1.map WorkerHost.workerIndex) ∧
    ((spawnAll reqs 0).1.map WorkerHost.workerIndex).Nodup ∧
    (spawnAll reqs 0).2 = reqs.length := by
  obtain ⟨h1, h2⟩ := spawnAll_indices reqs 0
  rw [← List.range_eq_range'] at h1
  refine ⟨h1, ?_, ?_, by simpa using h2⟩
  · rw [h1]
    exact List.pairwise_lt_range reqs.length
  · rw [h1]
    exact List.nodup_range reqs.length

/-- C10: a `WorkerHost`'s `hash()` is exactly the `workerHash` of the
`TestGroup` it was constructed with, and neither `start()` nor
`runTestGroup` changes the host at all — in particular `hash()`,
`workerIndex`, `parallelIndex` and the stored init params are unchanged for
the host's entire lifetime; the stored init params are exactly those built
from the construction arguments. -/
theorem C10_worker_host_frame (g : TestGroup) (pidx : Nat) (ld : SerializedLoaderData)
    (c : Nat) (p : RunPayload) :
    ((mkWorkerHost g pidx ld c).1.hash = g.workerHash) ∧
    (∀ h : WorkerHost, h.start.1 = h) ∧
    (∀ h : WorkerHost, (h.runTestGroup p).1 = h) ∧
    (∀ h : WorkerHost, h.start.1.hash = h.hash ∧ h.start.1.workerIndex = h.workerIndex ∧
      h.start.1.parallelIndex = h.parallelIndex ∧ h.start.1.paramsField = h.paramsField) ∧
    (∀ h : WorkerHost, (h.runTestGroup p).1.hash = h.hash ∧
      (h.runTestGroup p).1.workerIndex = h.workerIndex ∧
      (h.runTestGroup p).1.parallelIndex = h.parallelIndex ∧
      (h.runTestGroup p).1.paramsField = h.paramsField) ∧
    ((mkWorkerHost g pidx ld c).1.paramsField =
      { workerIndex := c, parallelIndex := pidx, repeatEachIndex := g.repeatEachIndex,
        projectId := g.projectId, loader := ld }) ∧
    ((mkWorkerHost g pidx ld c).1.workerIndex = c ∧ (mkWorkerHost g pidx ld c).2 = c + 1) :=
  ⟨rfl, fun _ => rfl, fun _ => rfl, fun _ => ⟨rfl, rfl, rfl, rfl⟩,
   fun _ => ⟨rfl, rfl, rfl, rfl⟩, rfl, rfl, rfl⟩

/-- Stepwise evaluation of the traversal on the dependency-cycle test pool:
visiting `foo` with `bar, baz, qux, foo` on the stack re-encounters `bar`
and reports the stack slice. -/
theorem visitD_cyclePool_foo : visitD cyclePool cfoo ["bar"] [cbar, cbaz, cqux, cfoo] =
    .error (.cycleErr [cbar, cbaz, cqux, cfoo]) := by
  rw [visitD]
  rw [show resolveDep cyclePool cfoo "bar" = some ⟨cbar, by simp [cyclePool]⟩ from rfl]
  dsimp only
  rw [if_neg (by decide : ¬ (cfoo.scope = FScope.worker ∧ cbar.scope = FScope.test))]
  rw [dif_pos (by decide : cbar.rid ∈ List.map Reg.rid [cbar, cbaz, cqux, cfoo])]
  rfl

theorem visitD_cyclePool_qux : visitD cyclePool cqux ["foo"] [cbar, cbaz, cqux] =
    .error (.cycleErr [cbar, cbaz, cqux, cfoo]) := by
  rw [visitD]
  rw [show resolveDep cyclePool cqux "foo" = some ⟨cfoo, by simp [cyclePool]⟩ from rfl]
  dsimp only
  rw [if_neg (by decide : ¬ (cqux.scope = FScope.worker ∧ cfoo.scope = FScope.test))]
  rw [dif_neg (by decide : ¬ cfoo.rid ∈ List.map Reg.rid [cbar, cbaz, cqux])]
  rw [show visitD cyclePool cfoo cfoo.deps ([cbar, cbaz, cqux] ++ [cfoo]) =
    .error (.cycleErr [cbar, cbaz, cqux, cfoo]) from visitD_cyclePool_foo]

theorem visitD_cyclePool_baz : visitD cyclePool cbaz ["qux"] [cbar, cbaz] =
    .error (.cycleErr [cbar, cbaz, cqux, cfoo]) := by
  rw [visitD]
  rw [show resolveDep cyclePool cbaz "qux" = some ⟨cqux, by simp [cyclePool]⟩ from rfl]
  dsimp only
  rw [if_neg (by decide : ¬ (cbaz.scope = FScope.worker ∧ cqux.scope = FScope.test))]
  rw [dif_neg (by decide : ¬ cqux.rid ∈ List.map Reg.rid [cbar, cbaz])]
  rw [show visitD cyclePool cqux cqux.deps ([cbar, cbaz] ++ [cqux]) =
    .error (.cycleErr [cbar, cbaz, cqux, cfoo]) from visitD_cyclePool_qux]

theorem visitD_cyclePool_bar : visitD cyclePool cbar ["baz"] [cbar] =
    .error (.cycleErr [cbar, cbaz, cqux, cfoo]) := by
  rw [visitD]
  rw [show resolveDep cyclePool cbar "baz" = some ⟨cbaz, by simp [cyclePool]⟩ from rfl]
  dsimp only
  rw [if_neg (by decide : ¬ (cbar.scope = FScope.worker ∧ cbaz.scope = FScope.test))]
  rw [dif_neg (by decide : ¬ cbaz.rid ∈ List.map Reg.rid [cbar])]
  rw [show visitD cyclePool cbaz cbaz.deps ([cbar] ++ [cbaz]) =
    .error (.cycleErr [cbar, cbaz, cqux, cfoo]) from visitD_cyclePool_baz]

/-- Full evaluation of the resolver on the dependency-cycle test pool: the
first root in sorted order is `bar`, and its traversal reports exactly the
cycle `bar → baz → qux → foo → bar`. -/
theorem validate_cyclePool :
    validate cyclePool = .error (.cycleErr [cbar, cbaz, cqux, cfoo]) := by
  rw [show validate cyclePool = goRoots cyclePool (rootsOf cyclePool) from rfl]
  rw [show rootsOf cyclePool = ["bar", "baz", "foo", "good1", "good2", "qux"] by decide]
  rw [goRoots]
  rw [show findLatest cyclePool "bar" = some ⟨cbar, by simp [cyclePool]⟩ from rfl]
  dsimp only
  rw [show visitD cyclePool cbar cbar.deps [cbar] =
    .error (.cycleErr [cbar, cbaz, cqux, cfoo]) from visitD_cyclePool_bar]

/-- The reported cycle renders exactly the message and edge locations the
repository's dependency-cycle test expects. -/
theorem cyclePool_message :
    errorMessage (.cycleErr [cbar, cbaz, cqux, cfoo]) =
      "Fixtures \"bar\" -> \"baz\" -> \"qux\" -> \"foo\" -> \"bar\" form a dependency cycle:" ∧
    cycleLocs [cbar, cbaz, cqux, cfoo] =
      "x.spec.ts:5:29 -> x.spec.ts:5:29 -> x.spec.ts:5:29 -> x.spec.ts:5:29" := by
  constructor
  · decide
  · decide

/-- Registrations of the repository test `should throw for cycle in two
overrides`: base `foo` and `bar`, then overrides of each that self-reference
their previous definitions and cross-reference each other. -/
def ofoo1 : Reg := ⟨0, "foo", .test, [], "a.test.js:3:27", none⟩

def obar1 : Reg := ⟨1, "bar", .test, [], "a.test.js:4:27", none⟩

def ofoo2 : Reg := ⟨2, "foo", .test, ["foo", "bar"], "a.test.js:9:27", some 0⟩

def obar3 : Reg := ⟨3, "bar", .test, ["bar", "foo"], "a.test.js:12:27", some 1⟩

def overridePool : Pool := ⟨[ofoo1, obar1, ofoo2, obar3]⟩

/-- Building the registry from the override chain of that test yields exactly
the pool above, with each override linked to its previous definition. -/
theorem buildPool_overridePool :
    buildPool [⟨"foo", .test, [], "a.test.js:3:27"⟩, ⟨"bar", .test, [], "a.test.js:4:27"⟩,
      ⟨"foo", .test, ["foo", "bar"], "a.test.js:9:27"⟩,
      ⟨"bar", .test, ["bar", "foo"], "a.test.js:12:27"⟩] = .ok overridePool := rfl

theorem visitD_overridePool_bar1 :
    visitD overridePool obar1 ([] : List String) [obar3, obar1] = .ok () := by
  rw [visitD]

theorem visitD_overridePool_foo1 :
    visitD overridePool ofoo1 ([] : List String) [obar3, ofoo2, ofoo1] = .ok () := by
  rw [visitD]

theorem visitD_overridePool_foo2a :
    visitD overridePool ofoo2 ["bar"] [obar3, ofoo2] =
      .error (.cycleErr [obar3, ofoo2]) := by
  rw [visitD]
  rw [show resolveDep overridePool ofoo2 "bar" = some ⟨obar3, by simp [overridePool]⟩ from rfl]
  dsimp only
  rw [if_neg (by decide : ¬ (ofoo2.scope = FScope.worker ∧ obar3.scope = FScope.test))]
  rw [dif_pos (by decide : obar3.rid ∈ List.map Reg.rid [obar3, ofoo2])]
  rfl

theorem visitD_overridePool_foo2 :
    visitD overridePool ofoo2 ["foo", "bar"] [obar3, ofoo2] =
      .error (.cycleErr [obar3, ofoo2]) := by
  rw [visitD]
  rw [show resolveDep overridePool ofoo2 "foo" = some ⟨ofoo1, by simp [overridePool]⟩ from rfl]
  dsimp only
  rw [if_neg (by decide : ¬ (ofoo2.scope = FScope.worker ∧ ofoo1.scope = FScope.test))]
  rw [dif_neg (by decide : ¬ ofoo1.rid ∈ List.map Reg.rid [obar3, ofoo2])]
  rw [show visitD overridePool ofoo1 ofoo1.deps ([obar3, ofoo2] ++ [ofoo1]) = Except.ok () from
    visitD_overridePool_foo1]
  dsimp only
  exact visitD_overridePool_foo2a

theorem visitD_overridePool_bar3a :
    visitD overridePool obar3 ["foo"] [obar3] = .error (.cycleErr [obar3, ofoo2]) := by
  rw [visitD]
  rw [show resolveDep overridePool obar3 "foo" = some ⟨ofoo2, by simp [overridePool]⟩ from rfl]
  dsimp only
  rw [if_neg (by decide : ¬ (obar3.scope = FScope.worker ∧ ofoo2.scope = FScope.test))]
  rw [dif_neg (by decide : ¬ ofoo2.rid ∈ List.map Reg.rid [obar3])]
  rw [show visitD overridePool ofoo2 ofoo2.deps ([obar3] ++ [ofoo2]) =
    .error (.cycleErr [obar3, ofoo2]) from visitD_overridePool_foo2]

theorem visitD_overridePool_bar3 :
    visitD overridePool obar3 ["bar", "foo"] [obar3] = .error (.cycleErr [obar3, ofoo2]) := by
  rw [visitD]
  rw [show resolveDep overridePool obar3 "bar" = some ⟨obar1, by simp [overridePool]⟩ from rfl]
  dsimp only
  rw [if_neg (by decide : ¬ (obar3.scope = FScope.worker ∧ obar1.scope = FScope.test))]
  rw [dif_neg (by decide : ¬ obar1.rid ∈ List.map Reg.rid [obar3])]
  rw [show visitD overridePool obar1 obar1.deps ([obar3] ++ [obar1]) = Except.ok () from
    visitD_overridePool_bar1]
  dsimp only
  exact visitD_overridePool_bar3a

/-- Full evaluation of the resolver on the two-overrides pool: the traversal
starts at the latest `bar` override and reports the cycle through the latest
`foo` override, exactly as the repository test expects. -/
theorem validate_overridePool :
    validate overridePool = .error (.cycleErr [obar3, ofoo2]) := by
  rw [show validate overridePool = goRoots overridePool (rootsOf overridePool) from rfl]
  rw [show rootsOf overridePool = ["bar", "foo"] by decide]
  rw [goRoots]
  rw [show findLatest overridePool "bar" = some ⟨obar3, by simp [overridePool]⟩ from rfl]
  dsimp only
  rw [show visitD overridePool obar3 obar3.deps [obar3] =
    .error (.cycleErr [obar3, ofoo2]) from visitD_overridePool_bar3]

/-- The reported two-overrides cycle renders exactly the message and edge
locations the repository test expects. -/
theorem overridePool_message :
    errorMessage (.cycleErr [obar3, ofoo2]) =
      "Fixtures \"bar\" -> \"foo\" -> \"bar\" form a dependency cycle:" ∧
    cycleLocs [obar3, ofoo2] = "a.test.js:12:27 -> a.test.js:9:27" := by
  constructor
  · decide
  · decide

theorem visitD_workerPool_bar :
    visitD workerPool wbar ["foo"] [wbar] = .error (.workerDependsOnTest wbar wfoo) := by
  rw [visitD]
  rw [show resolveDep workerPool wbar "foo" = some ⟨wfoo, by simp [workerPool]⟩ from rfl]
  dsimp only
  rw [if_pos (by decide : wbar.scope = FScope.worker ∧ wfoo.scope = FScope.test)]

/-- Full evaluation of the resolver on the worker-depends-on-test pool,
rendering exactly the message the repository test expects. -/
theorem validate_workerPool :
    validate workerPool = .error (.workerDependsOnTest wbar wfoo) ∧
    errorMessage (.workerDependsOnTest wbar wfoo) =
      "worker fixture \"bar\" cannot depend on a test fixture \"foo\" defined in f.spec.ts:5:29." := by
  constructor
  · rw [show validate workerPool = goRoots workerPool (rootsOf workerPool) from rfl]
    rw [show rootsOf workerPool = ["bar", "foo"] by decide]
    rw [goRoots]
    rw [show findLatest workerPool "bar" = some ⟨wbar, by simp [workerPool]⟩ from rfl]
    dsimp only
    rw [show visitD workerPool wbar wbar.deps [wbar] =
      .error (.workerDependsOnTest wbar wfoo) from visitD_workerPool_bar]
  · decide

/-- Registrations of the repository test `should throw when overridden worker
fixture depends on a test fixture`: a test-scope `foo`, a worker-scope `bar`,
and a worker-scope override of `bar` that depends on `foo`. -/
def vfoo : Reg := ⟨0, "foo", .test, [], "f.spec.ts:5:30", none⟩

def vbar1 : Reg := ⟨1, "bar", .worker, [], "f.spec.ts:6:30", none⟩

def vbar2 : Reg := ⟨2, "bar", .worker, ["foo"], "f.spec.ts:9:27", some 1⟩

def overriddenWorkerPool : Pool := ⟨[vfoo, vbar1, vbar2]⟩

theorem visitD_overriddenWorkerPool_bar :
    visitD overriddenWorkerPool vbar2 ["foo"] [vbar2] =
      .error (.workerDependsOnTest vbar2 vfoo) := by
  rw [visitD]
  rw [show resolveDep overriddenWorkerPool vbar2 "foo" =
    some ⟨vfoo, by simp [overriddenWorkerPool]⟩ from rfl]
  dsimp only
  rw [if_pos (by decide : vbar2.scope = FScope.worker ∧ vfoo.scope = FScope.test)]

/-- Full evaluation of the resolver on the overridden-worker-fixture pool:
the violation through an override introduced later in the chain is caught,
with exactly the message the repository test expects. -/
theorem validate_overriddenWorkerPool :
    validate overriddenWorkerPool = .error (.workerDependsOnTest vbar2 vfoo) ∧
    errorMessage (.workerDependsOnTest vbar2 vfoo) =
      "worker fixture \"bar\" cannot depend on a test fixture \"foo\" defined in f.spec.ts:5:30." := by
  constructor
  · rw [show validate overriddenWorkerPool =
      goRoots overriddenWorkerPool (rootsOf overriddenWorkerPool) from rfl]
    rw [show rootsOf overriddenWorkerPool = ["bar", "foo"] by decide]
    rw [goRoots]
    rw [show findLatest overriddenWorkerPool "bar" =
      some ⟨vbar2, by simp [overriddenWorkerPool]⟩ from rfl]
    dsimp only
    rw [show visitD overriddenWorkerPool vbar2 vbar2.deps [vbar2] =
      .error (.workerDependsOnTest vbar2 vfoo) from visitD_overriddenWorkerPool_bar]
  · decide
